import Mathlib

/-!
A verification development for the SSI (server-side include) processing core
of the `vite-plugin-ssi` repository: the recursive include expander in
`src/ssi.ts` (`processSsi` / `processSsiRecursive`, `resolveIncludePath`,
`normalizePath`) and the file-type classifier in `src/file-types.ts`
(`matchesFileType`, `getFileExtension`, `DEFAULT_FILE_TYPE_MAP`).

Modelling conventions:
* Strings are Lean `String` (a list of characters).  The documents under
  consideration are ASCII, where JavaScript's UTF-16 code-unit offsets agree
  with character offsets, so `slice`/`substring` are modelled by take/drop on
  the character list.
* The filesystem collaborator (`fs.access` + `fs.readFile`) is modelled as a
  function `String → Option String`: `none` means the access or the read
  throws (file missing, permission failure), `some c` means the read yields
  `c`.
* Node's `path` module (posix flavour) is modelled below.  `path.resolve` on
  a relative path consults the process working directory; the model fixes the
  working directory to `"/"`.  All paths appearing in theorems are absolute,
  so this choice is never exercised.
* The JavaScript `Set` preserves insertion order (`Array.from`, `forEach`
  enumerate in insertion order, which the circular-include diagnostic relies
  on), so `seen` and `deps` are modelled as duplicate-free `List String` in
  insertion order; `add` appends when the element is absent.
* `processSsiRecursive` in the source carries a `depth` counter, checks
  `depth >= maxDepth` and recurses at `depth + 1`; termination is by
  `maxDepth - depth`.  The model carries `gas = maxDepth - depth` instead:
  the check becomes `gas = 0` and each descent passes `gas - 1`, which is the
  same function (at top level `depth = 0`, `gas = maxDepth`, and
  `maxDepth - depth = 0 ↔ depth ≥ maxDepth` over ℕ).  This makes the
  recursion structural.
-/

/-! ## Character-level string helpers

These mirror library string operations (`splitOn`, `startsWith`, `endsWith`,
`toLowerCase`, `join`) on the character list, keeping every definition
kernel-computable. -/

/-- Split a character list at every `/`, like `String.prototype.split('/')`
(empty segments included). -/
def splitSegsAux : List Char → List Char → List String
  | acc, [] => [String.mk acc.reverse]
  | acc, c :: cs =>
    if c = '/' then String.mk acc.reverse :: splitSegsAux [] cs
    else splitSegsAux (c :: acc) cs

/-- Split a path string on `/`. -/
def splitSegs (p : String) : List String := splitSegsAux [] p.data

/-- JS `p.startsWith('/')`. -/
def startsWithSlash (p : String) : Bool :=
  match p.data with
  | '/' :: _ => true
  | _ => false

/-- JS `p.endsWith('/')`. -/
def endsWithSlash (p : String) : Bool := p.data.getLast? == some '/'

/-- JS `Array.prototype.join(sep)`. -/
def joinWith (sep : String) : List String → String
  | [] => ""
  | [s] => s
  | s :: rest => s ++ sep ++ joinWith sep rest

/-- JS `toLowerCase` on the ASCII fragment used here. -/
def toLowerStr (s : String) : String := String.mk (s.data.map Char.toLower)

/-! ## Model of Node's posix `path` module -/

/-- Normalize the segments of a path: drop empty and `"."` segments, let
`".."` pop the previous segment (at the root of an absolute path a `".."` is
dropped; in a relative path unmatched `".."` segments are kept).  `stack`
holds the processed segments in reverse order. -/
def normSegs (absolute : Bool) : List String → List String → List String
  | stack, [] => stack.reverse
  | stack, s :: rest =>
    if s = "" || s = "." then normSegs absolute stack rest
    else if s = ".." then
      match stack with
      | t :: ts =>
        if t = ".." then normSegs absolute (s :: t :: ts) rest
        else normSegs absolute ts rest
      | [] =>
        if absolute then normSegs absolute [] rest
        else normSegs absolute [".."] rest
    else normSegs absolute (s :: stack) rest

/-- Reassemble normalized segments into a path string. -/
def joinSegs (absolute : Bool) (segs : List String) : String :=
  if absolute then "/" ++ joinWith "/" segs
  else if segs = [] then "." else joinWith "/" segs

/-- Core normalization shared by the `path.resolve` / `path.join` models:
split on `/`, normalize the segments, reassemble. -/
def normalizeParts (p : String) : String :=
  let absolute := startsWithSlash p
  joinSegs absolute (normSegs absolute [] (splitSegs p))

/-- Model of posix `path.resolve(p)` with the working directory fixed to
`"/"` (theorems only use absolute `p`, where the working directory is
irrelevant). -/
def pathResolve (p : String) : String :=
  if startsWithSlash p then normalizeParts p
  else normalizeParts ("/" ++ p)

/-- Model of posix `path.resolve(dir, p)`: if `p` is absolute it wins,
otherwise it is resolved against `dir` (itself resolved against the
working directory when relative). -/
def pathResolve2 (dir p : String) : String :=
  if startsWithSlash p then pathResolve p
  else pathResolve (dir ++ "/" ++ p)

/-- Normalization step of the `path.join` model: empty input gives `"."`,
otherwise normalize, preserving one trailing slash as Node does. -/
def joinFinish (joined : String) : String :=
  if joined = "" then "."
  else if endsWithSlash joined && !(endsWithSlash (normalizeParts joined)) then
    normalizeParts joined ++ "/"
  else normalizeParts joined

/-- Model of posix `path.join(a, b)`: concatenate with a separator and
normalize, preserving one trailing slash as Node does. -/
def pathJoin (a b : String) : String :=
  joinFinish (if a = "" then b else if b = "" then a else a ++ "/" ++ b)

/-- Model of posix `path.dirname`: scanning from the end, skip trailing
slashes, then cut at the next slash (never cutting at index 0; an absolute
path with no further slash gives `"/"`, a relative one gives `"."`).  The
`e = 2` case reproduces Node's preservation of a doubled root slash. -/
def pathDirname (p : String) : String :=
  let cs := p.data
  match cs with
  | [] => "."
  | c0 :: _ =>
    let hasRoot := c0 = '/'
    let t := cs.reverse.dropWhile (fun c => c = '/')
    let r2 := t.dropWhile (fun c => c ≠ '/')
    let e := r2.length
    if e ≤ 1 then (if hasRoot then "/" else ".")
    else if hasRoot && e = 2 then "//"
    else String.mk (cs.take (e - 1))

/-- JS `String.prototype.slice(0, n)` for the ASCII fragment used here. -/
def strTake (s : String) (n : Nat) : String := String.mk (s.data.take n)

/-- JS `String.prototype.slice(n)` for the ASCII fragment used here. -/
def strDrop (s : String) (n : Nat) : String := String.mk (s.data.drop n)

/-! ## `src/file-types.ts` -/

/-- Type `FileTypeMap`: a JS object mapping type names to extension lists,
modelled as an association list (first binding wins). -/
def FileTypeMap : Type := List (String × List String)

/-- Constant `DEFAULT_FILE_TYPE_MAP` from `src/file-types.ts`. -/
def DEFAULT_FILE_TYPE_MAP : FileTypeMap :=
  [("html", [".html", ".htm", ".shtml"]),
   ("js", [".js", ".mjs", ".cjs", ".ts", ".tsx", ".jsx", ".mts", ".cts"]),
   ("css", [".css", ".scss", ".sass", ".less", ".styl"]),
   ("json", [".json", ".jsonc"]),
   ("xml", [".xml", ".xhtml"]),
   ("text", [".txt", ".md", ".markdown"])]

/-- JS `fileTypeMap[key] || []`: property lookup defaulting to the empty list. -/
def lookupType (m : FileTypeMap) (key : String) : List String :=
  match List.find? (fun e => e.1 == key) m with
  | some e => e.2
  | none => []

/-- Function `getFileExtension` from `src/file-types.ts`: `lastIndexOf('.')`, the
substring from there, `null` unless its length exceeds 1 (so a path with no
dot, or ending in its only trailing dot, has no extension), lower-cased.
JS `toLowerCase` agrees with `String.toLower` on the ASCII paths used here. -/
def getFileExtension (filePath : String) : Option String :=
  let cs := filePath.data
  if cs.contains '.' then
    let lastDot := cs.length - 1 - List.indexOf '.' cs.reverse
    let ext := cs.drop lastDot
    if ext.length > 1 then some (toLowerStr (String.mk ext)) else none
  else none

/-- Function `matchesFileType` from `src/file-types.ts`: true iff the path's
extension is in the extension list of some listed type name (looked up
lower-cased, missing entries read as `[]`). -/
def matchesFileType (filePath : String) (fileTypes : List String)
    (fileTypeMap : FileTypeMap) : Bool :=
  match getFileExtension filePath with
  | none => false
  | some ext =>
    fileTypes.any (fun fileType =>
      (lookupType fileTypeMap (toLowerStr fileType)).contains ext)

/-! ## The directive scanner: `includeRegex` from `src/ssi.ts`

The regex `<!--#include\s+virtual\s*=\s*"([^"]+)"\s*-->` is deterministic:
every repetition (`\s+`, `\s*`, `[^"]+`) is followed by a literal character
excluded from the repeated class, so greedy matching with no backtracking is
exact.  `matchDirectiveAt` decides a match anchored at the head of the
character list; `scanAux` replays the `exec` loop (resume at the end of each
match, advance one character on failure). -/

/-- JavaScript's `\s` character class. -/
def isSpaceJs (c : Char) : Bool :=
  let n := c.toNat
  (9 ≤ n && n ≤ 13) || n == 32 || n == 160 || n == 0x1680 ||
  (0x2000 ≤ n && n ≤ 0x200a) || n == 0x2028 || n == 0x2029 ||
  n == 0x202f || n == 0x205f || n == 0x3000 || n == 0xfeff

/-- Consume an exact literal, returning the remainder. -/
def dropLit : List Char → List Char → Option (List Char)
  | [], cs => some cs
  | _ :: _, [] => none
  | l :: ls, c :: cs => if c = l then dropLit ls cs else none

/-- Match the include regex at the head of `cs`; on success return the
length of the whole match (`match[0].length`) and the capture group
(`match[1]`, the virtual path). -/
def matchDirectiveAt (cs : List Char) : Option (Nat × List Char) :=
  match dropLit "<!--#include".data cs with
  | none => none
  | some cs1 =>
    let ws1 := cs1.takeWhile isSpaceJs
    let cs2 := cs1.dropWhile isSpaceJs
    if ws1.length = 0 then none
    else
      match dropLit "virtual".data cs2 with
      | none => none
      | some cs3 =>
        let ws2 := cs3.takeWhile isSpaceJs
        let cs4 := cs3.dropWhile isSpaceJs
        match dropLit "=".data cs4 with
        | none => none
        | some cs5 =>
          let ws3 := cs5.takeWhile isSpaceJs
          let cs6 := cs5.dropWhile isSpaceJs
          match dropLit "\"".data cs6 with
          | none => none
          | some cs7 =>
            let tgt := cs7.takeWhile (fun c => c ≠ '"')
            let cs8 := cs7.dropWhile (fun c => c ≠ '"')
            if tgt.length = 0 then none
            else
              match dropLit "\"".data cs8 with
              | none => none
              | some cs9 =>
                let ws4 := cs9.takeWhile isSpaceJs
                let cs10 := cs9.dropWhile isSpaceJs
                match dropLit "-->".data cs10 with
                | none => none
                | some _ =>
                  some (12 + ws1.length + 7 + ws2.length + 1 + ws3.length +
                        1 + tgt.length + 1 + ws4.length + 3, tgt)

/-- One collected directive match: `{index, length, virtualPath}` from the
match-collection loop in `processSsiRecursive`. -/
structure SsiMatch where
  index : Nat
  length : Nat
  virtualPath : String
deriving DecidableEq, Repr

/-- The `exec` loop over a buffer: at each position try the anchored match;
on success record it and resume after it (`lastIndex`), on failure advance
one character.  `fuel` bounds the recursion; `fuel = length of the buffer`
always suffices because every step consumes at least one character. -/
def scanAux : Nat → List Char → Nat → List SsiMatch
  | 0, _, _ => []
  | _ + 1, [], _ => []
  | fuel + 1, c :: rest, i =>
    match matchDirectiveAt (c :: rest) with
    | some (len, tgt) =>
      ⟨i, len, String.mk tgt⟩ :: scanAux fuel (rest.drop (len - 1)) (i + len)
    | none => scanAux fuel rest (i + 1)

/-- All directive matches of a buffer, in document order with original
offsets (the `while ((match = includeRegex.exec(content)) !== null)` loop). -/
def findDirectives (content : String) : List SsiMatch :=
  scanAux content.data.length content.data 0

/-! ## `src/ssi.ts`: the recursive expander -/

/-- Structure `ProcessResult` from `src/ssi.ts`; `deps` models the JS `Set<string>`
in insertion order. -/
structure ProcessResult where
  code : String
  deps : List String
deriving DecidableEq, Repr

/-- Function `resolveIncludePath` from `src/ssi.ts`: a target starting with `/` is
joined under the project root with the slash stripped; otherwise it is
resolved against the directory of the including file. -/
def resolveIncludePath (virtualPath includingFile root : String) : String :=
  if startsWithSlash virtualPath then
    pathJoin root (strDrop virtualPath 1)
  else
    pathResolve2 (pathDirname includingFile) virtualPath

/-- Function `normalizePath` from `src/ssi.ts`: `path.resolve` then fold every
backslash to a forward slash. -/
def normalizePath (filePath : String) : String :=
  String.mk ((pathResolve filePath).data.map (fun c => if c = '\\' then '/' else c))

/-- JS `Set.add`: append unless already present (JS sets keep insertion
order). -/
def insertDep (deps : List String) (x : String) : List String :=
  if deps.contains x then deps else deps ++ [x]

/-- JS `processed.deps.forEach((dep) => deps.add(dep))`: merge in insertion
order. -/
def mergeDeps (deps : List String) (ds : List String) : List String :=
  ds.foldl insertDep deps

/-- One pending replacement `{start, end, replacement}` (`end` is a Lean
keyword, the field is named `stop`). -/
structure Replacement where
  start : Nat
  stop : Nat
  replacement : String
deriving DecidableEq, Repr

/-- The circular-include diagnostic from `src/ssi.ts`: `Array.from(seen)`
(insertion order), the chain from the first occurrence of the repeated path,
with that path appended, joined by `" -> "`. -/
def cycleDiagnostic (seen : List String) (normalizedPath : String) : String :=
  let seenArray := seen
  let cycleStart := List.indexOf normalizedPath seenArray
  let cycle := joinWith " -> " (seenArray.drop cycleStart ++ [normalizedPath])
  "<!-- SSI Error: Circular include detected: " ++ cycle ++ " -->"

/-- The per-directive loop of `processSsiRecursive`
(`for (let i = matches.length - 1; i >= 0; i--)`): the caller passes the
collected matches *reversed*, and this walks them in that order, threading
the dependency set and appending to `replacements` (`Array.prototype.push`).
`recurse` is the recursive call at `depth + 1` with the extended `seen`
copy, closed over by the caller. -/
def processMatches (fsys : String → Option String) (root : String)
    (includeFileTypes : List String) (fileTypeMap : FileTypeMap)
    (recurse : String → String → ProcessResult) (filePath : String) :
    List SsiMatch → List String → List Replacement →
    List String × List Replacement
  | [], deps, replacements => (deps, replacements)
  | m :: rest, deps, replacements =>
    let resolvedPath := resolveIncludePath m.virtualPath filePath root
    let normalizedResolvedPath := normalizePath resolvedPath
    let deps1 := insertDep deps normalizedResolvedPath
    match fsys resolvedPath with
    | none =>
      processMatches fsys root includeFileTypes fileTypeMap recurse filePath
        rest deps1
        (replacements ++ [⟨m.index, m.index + m.length,
          "<!-- SSI Error: File not found: " ++ normalizedResolvedPath ++ " -->"⟩])
    | some includedContent =>
      let shouldProcessSsi :=
        if includeFileTypes.length = 0 then false
        else matchesFileType resolvedPath includeFileTypes fileTypeMap
      let processed : ProcessResult :=
        if shouldProcessSsi then recurse resolvedPath includedContent
        else { code := includedContent, deps := [] }
      let deps2 := mergeDeps deps1 processed.deps
      processMatches fsys root includeFileTypes fileTypeMap recurse filePath
        rest deps2
        (replacements ++ [⟨m.index, m.index + m.length, processed.code⟩])

/-- The loop `for (const { start, end, replacement } of replacements) result =
result.slice(0, start) + replacement + result.slice(end)`. -/
def applyReplacements : String → List Replacement → String
  | result, [] => result
  | result, r :: rest =>
    applyReplacements (strTake result r.start ++ r.replacement ++ strDrop result r.stop) rest

/-- Function `processSsiRecursive` from `src/ssi.ts`.  `gas` stands for
`maxDepth - depth` (see the header comment): the source's
`if (depth >= maxDepth)` is `gas = 0` and the recursive call at `depth + 1`
receives `gas - 1`.  The cycle check precedes the depth check, `seen` is
extended with the current normalized path, the buffer is scanned, the
matches are processed from the last to the first, and the recorded
replacements are applied to the original buffer. -/
def processSsiRecursive (fsys : String → Option String) (root : String)
    (maxDepth : Nat) (includeFileTypes : List String)
    (fileTypeMap : FileTypeMap) :
    Nat → String → String → List String → ProcessResult
  | 0, filePath, _, seen =>
    -- the cycle check precedes the depth check in the source; splitting on
    -- `gas` first duplicates it textually but not behaviourally
    let normalizedPath := normalizePath filePath
    if seen.contains normalizedPath then
      { code := cycleDiagnostic seen normalizedPath, deps := [] }
    else
      { code := "<!-- SSI Error: Maximum include depth (" ++
          toString maxDepth ++ ") exceeded -->",
        deps := [] }
  | gasNext + 1, filePath, content, seen =>
    let normalizedPath := normalizePath filePath
    if seen.contains normalizedPath then
      { code := cycleDiagnostic seen normalizedPath, deps := [] }
    else
      let seenNext := seen ++ [normalizedPath]
      let found := findDirectives content
      let step := processMatches fsys root includeFileTypes fileTypeMap
        (fun includedPath includedContent =>
          processSsiRecursive fsys root maxDepth includeFileTypes fileTypeMap
            gasNext includedPath includedContent seenNext)
        filePath found.reverse [] []
      { code := applyReplacements content step.2, deps := step.1 }

/-- Structure `ProcessSsiOptions` from `src/ssi.ts`, with its defaults. -/
structure ProcessSsiOptions where
  root : String
  maxDepth : Nat
  includeFileTypes : List String := []
  fileTypeMap : FileTypeMap := DEFAULT_FILE_TYPE_MAP

/-- Function `processSsi` from `src/ssi.ts`: the top-level entry, `seen = ∅` and
`depth = 0` (so `gas = maxDepth`). -/
def processSsi (fsys : String → Option String) (filePath content : String)
    (options : ProcessSsiOptions) : ProcessResult :=
  processSsiRecursive fsys options.root options.maxDepth
    options.includeFileTypes options.fileTypeMap
    options.maxDepth filePath content []

/-! ## Helper notions used in claim statements -/

/-- Number of (possibly overlapping) occurrences of `pat` in `s`, counted by
starting position. -/
def occurrencesOf (pat s : String) : Nat :=
  ((List.range (s.data.length + 1)).filter
    (fun i => List.isPrefixOf pat.data (s.data.drop i))).length

/-- The sequence of directive start offsets in the order the per-directive
loop (`for (let i = matches.length - 1; i >= 0; i--)`) visits them. -/
def processedOrder (content : String) : List Nat :=
  ((findDirectives content).map (fun m => m.index)).reverse

/-! ## Basic lemmas about the dependency-set model -/

theorem mem_insertDep (deps : List String) (x d : String) :
    d ∈ insertDep deps x ↔ d ∈ deps ∨ d = x := by
  unfold insertDep
  split
  · next hc =>
      have hx : x ∈ deps := List.elem_iff.mp hc
      constructor
      · exact .inl
      · rintro (hd | rfl)
        · exact hd
        · exact hx
  · next hc =>
      simp [List.mem_append]

theorem mem_mergeDeps (deps ds : List String) (d : String) :
    d ∈ mergeDeps deps ds ↔ d ∈ deps ∨ d ∈ ds := by
  induction ds generalizing deps with
  | nil => simp [mergeDeps]
  | cons x xs ih =>
    unfold mergeDeps at ih ⊢
    rw [List.foldl_cons, ih, mem_insertDep]
    constructor
    · rintro ((h | rfl) | h)
      · exact .inl h
      · exact .inr (List.mem_cons_self _ _)
      · exact .inr (List.mem_cons_of_mem _ h)
    · rintro (h | h)
      · exact .inl (.inl h)
      · rcases List.mem_cons.mp h with rfl | h
        · exact .inl (.inr rfl)
        · exact .inr h

/-! ## C1: the two-file cycle -/

/-- Filesystem fixture for the two-file cycle: `/a.html` includes `/b.html`
and `/b.html` includes `/a.html`. -/
def cycleFs : String → Option String := fun p =>
  if p = "/a.html" then some "X<!--#include virtual=\"/b.html\" -->Y"
  else if p = "/b.html" then some "P<!--#include virtual=\"/a.html\" -->Q"
  else none

/-- The circular-include diagnostic produced when the `/a.html` →
`/b.html` → `/a.html` cycle closes. -/
def circularDiagAB : String :=
  "<!-- SSI Error: Circular include detected: /a.html -> /b.html -> /a.html -->"

/-- C1: for the two-file cycle (A includes B, B includes A, both
recursion-eligible) expansion terminates with exactly one CircularInclude
diagnostic, rendered with the `->`-joined chain of normalized ancestor paths
from the first occurrence of the repeated path ending with that path
repeated (`/a.html -> /b.html -> /a.html`); the call that closes the cycle
returns the diagnostic with an empty dependency set and scans nothing (its
result is independent of the content and of the remaining depth budget). -/
theorem cycle_two_files_one_diagnostic :
    (processSsi cycleFs "/a.html" "X<!--#include virtual=\"/b.html\" -->Y"
        { root := "/", maxDepth := 10, includeFileTypes := ["html"] }
      = { code := "XP" ++ circularDiagAB ++ "QY", deps := ["/b.html", "/a.html"] }) ∧
    occurrencesOf "Circular include detected" ("XP" ++ circularDiagAB ++ "QY") = 1 ∧
    (∀ (content : String) (gas : Nat),
      processSsiRecursive cycleFs "/" 10 ["html"] DEFAULT_FILE_TYPE_MAP gas
          "/a.html" content ["/a.html", "/b.html"]
        = { code := circularDiagAB, deps := [] }) := by
  refine ⟨by decide, by decide, fun content gas => ?_⟩
  have hn : normalizePath "/a.html" = "/a.html" := by decide
  have hd : cycleDiagnostic ["/a.html", "/b.html"] "/a.html" = circularDiagAB := by
    decide
  cases gas with
  | zero => simp [processSsiRecursive, hn, hd]
  | succ g => simp [processSsiRecursive, hn, hd]

/-! ## C3: verbatim splice of a non-recursive include -/

/-- C3: for a document whose scan finds exactly one directive, whose
resolved target exists and is not recursion-eligible, the returned text is
the input with the directive's `[start, start+length)` span replaced by the
target's raw content verbatim, and the dependency set is exactly the
normalized resolved target. -/
theorem nonrecursive_include_spliced_verbatim
    (fsys : String → Option String) (root : String) (maxDepth : Nat)
    (includeFileTypes : List String) (fileTypeMap : FileTypeMap)
    (filePath content : String) (m : SsiMatch) (c : String)
    (hscan : findDirectives content = [m])
    (hread : fsys (resolveIncludePath m.virtualPath filePath root) = some c)
    (helig : (if includeFileTypes.length = 0 then false
              else matchesFileType (resolveIncludePath m.virtualPath filePath root)
                     includeFileTypes fileTypeMap) = false)
    (hdepth : maxDepth ≠ 0) :
    processSsi fsys filePath content
        { root := root, maxDepth := maxDepth,
          includeFileTypes := includeFileTypes, fileTypeMap := fileTypeMap }
      = { code := strTake content m.index ++ c ++ strDrop content (m.index + m.length),
          deps := [normalizePath (resolveIncludePath m.virtualPath filePath root)] } := by
  obtain ⟨g, rfl⟩ : ∃ g, maxDepth = g + 1 := ⟨maxDepth - 1, by omega⟩
  have hcond : ¬(¬includeFileTypes = [] ∧
      matchesFileType (resolveIncludePath m.virtualPath filePath root)
        includeFileTypes fileTypeMap = true) := by
    by_cases he : includeFileTypes = []
    · rintro ⟨hne, _⟩; exact hne he
    · have hl : ¬ includeFileTypes.length = 0 := by
        simpa [List.length_eq_zero] using he
      rw [if_neg hl] at helig
      rintro ⟨_, hm2⟩
      rw [helig] at hm2
      exact Bool.false_ne_true hm2
  simp [processSsi, processSsiRecursive, hscan, processMatches, hread, hcond,
    mergeDeps, insertDep, applyReplacements]

/-- Witness for C3, the concrete scenario: `<body><!--#include
virtual="/h.html" --></body>` with `/h.html` containing
`<header>Nav</header>` and no recursive types enabled expands to
`<body><header>Nav</header></body>` with dependency set
`{normalized(/h.html)}`. -/
theorem nonrecursive_include_spliced_verbatim_witness :
    processSsi (fun p => if p = "/h.html" then some "<header>Nav</header>" else none)
        "/index.html" "<body><!--#include virtual=\"/h.html\" --></body>"
        { root := "/", maxDepth := 10 }
      = { code := "<body><header>Nav</header></body>", deps := ["/h.html"] } := by
  have h := nonrecursive_include_spliced_verbatim
    (fun p => if p = "/h.html" then some "<header>Nav</header>" else none)
    "/" 10 [] DEFAULT_FILE_TYPE_MAP "/index.html"
    "<body><!--#include virtual=\"/h.html\" --></body>"
    ⟨6, 34, "/h.html"⟩ "<header>Nav</header>"
    (by decide) (by decide) (by decide) (by decide)
  exact h.trans (by decide)

/-! ## Splice arithmetic -/

theorem strData_append (s t : String) : (s ++ t).data = s.data ++ t.data := rfl

theorem take_exact (l1 l2 : List Char) : (l1 ++ l2).take l1.length = l1 :=
  List.take_left l1 l2

theorem drop_exact (l1 l2 : List Char) : (l1 ++ l2).drop l1.length = l2 :=
  List.drop_left l1 l2

/-- Applying one recorded replacement splices its text between the
surrounding segments. -/
theorem applyReplacements_one (s0 d1 s1 : List Char) (r1 : String) :
    applyReplacements (String.mk (s0 ++ d1 ++ s1))
      [⟨s0.length, s0.length + d1.length, r1⟩]
      = String.mk (s0 ++ r1.data ++ s1) := by
  have h1 : (s0 ++ d1 ++ s1).take s0.length = s0 := by
    have := take_exact s0 (d1 ++ s1)
    simpa [List.append_assoc] using this
  have h2 : (s0 ++ d1 ++ s1).drop (s0.length + d1.length) = s1 := by
    have := drop_exact (s0 ++ d1) s1
    simpa [List.append_assoc, List.length_append] using this
  simp only [applyReplacements, strTake, strDrop, h1, h2]
  apply String.ext
  simp [strData_append, List.append_assoc]

/-- Applying two recorded replacements (higher offset first, as the source
does) splices both texts between the surrounding segments. -/
theorem applyReplacements_two (s0 d1 s1 d2 s2 : List Char) (r1 r2 : String) :
    applyReplacements (String.mk (s0 ++ d1 ++ s1 ++ d2 ++ s2))
      [⟨(s0 ++ d1 ++ s1).length, (s0 ++ d1 ++ s1).length + d2.length, r2⟩,
       ⟨s0.length, s0.length + d1.length, r1⟩]
      = String.mk (s0 ++ r1.data ++ s1 ++ r2.data ++ s2) := by
  have h1 : (s0 ++ d1 ++ s1 ++ d2 ++ s2).take (s0 ++ d1 ++ s1).length
      = s0 ++ d1 ++ s1 := by
    have := take_exact (s0 ++ d1 ++ s1) (d2 ++ s2)
    simpa [List.append_assoc] using this
  have h2 : (s0 ++ d1 ++ s1 ++ d2 ++ s2).drop ((s0 ++ d1 ++ s1).length + d2.length)
      = s2 := by
    have := drop_exact (s0 ++ d1 ++ s1 ++ d2) s2
    simpa [List.append_assoc, List.length_append, Nat.add_assoc] using this
  have hmid : (String.mk (s0 ++ d1 ++ s1) ++ r2 ++ String.mk s2).data
      = s0 ++ d1 ++ s1 ++ r2.data ++ s2 := by
    simp [strData_append, List.append_assoc]
  have h3 : (s0 ++ d1 ++ s1 ++ r2.data ++ s2).take s0.length = s0 := by
    have := take_exact s0 (d1 ++ s1 ++ r2.data ++ s2)
    simpa [List.append_assoc] using this
  have h4 : (s0 ++ d1 ++ s1 ++ r2.data ++ s2).drop (s0.length + d1.length)
      = s1 ++ r2.data ++ s2 := by
    have := drop_exact (s0 ++ d1) (s1 ++ r2.data ++ s2)
    simpa [List.append_assoc, List.length_append] using this
  simp only [applyReplacements, strTake, strDrop, h1, h2]
  rw [show (String.mk (s0 ++ d1 ++ s1) ++ r2 ++ String.mk s2)
      = String.mk (s0 ++ d1 ++ s1 ++ r2.data ++ s2) from String.ext hmid]
  have h2' : (s0 ++ d1 ++ s1 ++ r2.data ++ s2).drop (s0.length + d1.length)
      = s1 ++ r2.data ++ s2 := h4
  simp only [h3, h2']
  apply String.ext
  simp [strData_append, List.append_assoc]

/-- Variant of `applyReplacements_one` taking the numeric span as equations,
convenient at concrete offsets. -/
theorem applyReplacements_one' (s0 d1 s1 : List Char) (r1 : String)
    (content : String) (a1 b1 : Nat)
    (hc : content.data = s0 ++ d1 ++ s1)
    (ha1 : a1 = s0.length) (hb1 : b1 = s0.length + d1.length) :
    applyReplacements content [⟨a1, b1, r1⟩] = String.mk (s0 ++ r1.data ++ s1) := by
  have hcontent : content = String.mk (s0 ++ d1 ++ s1) := String.ext hc
  subst ha1 hb1 hcontent
  exact applyReplacements_one s0 d1 s1 r1

/-- Variant of `applyReplacements_two` taking the numeric spans as
equations, convenient at concrete offsets. -/
theorem applyReplacements_two' (s0 d1 s1 d2 s2 : List Char) (r1 r2 : String)
    (content : String) (a1 b1 a2 b2 : Nat)
    (hc : content.data = s0 ++ d1 ++ s1 ++ d2 ++ s2)
    (ha1 : a1 = s0.length) (hb1 : b1 = s0.length + d1.length)
    (ha2 : a2 = s0.length + d1.length + s1.length)
    (hb2 : b2 = s0.length + d1.length + s1.length + d2.length) :
    applyReplacements content [⟨a2, b2, r2⟩, ⟨a1, b1, r1⟩]
      = String.mk (s0 ++ r1.data ++ s1 ++ r2.data ++ s2) := by
  have hcontent : content = String.mk (s0 ++ d1 ++ s1 ++ d2 ++ s2) := String.ext hc
  subst ha1 hb1 hcontent
  have hl2 : a2 = (s0 ++ d1 ++ s1).length := by
    simp [List.length_append, ha2, Nat.add_assoc]
  have hl2' : b2 = (s0 ++ d1 ++ s1).length + d2.length := by
    simp [List.length_append, hb2, Nat.add_assoc]
  subst hl2 hl2'
  exact applyReplacements_two s0 d1 s1 d2 s2 r1 r2

theorem applyReplacements_nil (s : String) : applyReplacements s [] = s := rfl

/-! ## C9: sibling isolation of the ancestor chain -/

/-- C9: a document that includes the same acyclic, recursion-eligible file
`/c.html` via two separate directives expands both occurrences fully, with
no spurious CircularInclude diagnostic: for every directive-free content of
`/c.html` the result is exactly the two splices (so the second sibling's
expansion is not affected by the first sibling's chain). -/
theorem sibling_branches_share_no_chain (c : String)
    (hc : findDirectives c = []) :
    processSsi (fun p => if p = "/c.html" then some c else none) "/i.html"
        "A<!--#include virtual=\"/c.html\" -->B<!--#include virtual=\"/c.html\" -->C"
        { root := "/", maxDepth := 10, includeFileTypes := ["html"] }
      = { code := "A" ++ c ++ "B" ++ c ++ "C", deps := ["/c.html"] } := by
  have hscan : findDirectives
      "A<!--#include virtual=\"/c.html\" -->B<!--#include virtual=\"/c.html\" -->C"
      = [⟨1, 34, "/c.html"⟩, ⟨36, 34, "/c.html"⟩] := by decide
  have hres : resolveIncludePath "/c.html" "/i.html" "/" = "/c.html" := by decide
  have hn1 : normalizePath "/i.html" = "/i.html" := by decide
  have hn2 : normalizePath "/c.html" = "/c.html" := by decide
  have hmf : matchesFileType "/c.html" ["html"] DEFAULT_FILE_TYPE_MAP = true := by decide
  have hcon0 : ([] : List String).contains "/i.html" = false := by decide
  have hcon1 : (["/i.html"] : List String).contains "/c.html" = false := by decide
  have hins0 : insertDep [] "/c.html" = ["/c.html"] := by decide
  have hins1 : insertDep ["/c.html"] "/c.html" = ["/c.html"] := by decide
  have happ : applyReplacements
      "A<!--#include virtual=\"/c.html\" -->B<!--#include virtual=\"/c.html\" -->C"
      [⟨36, 70, c⟩, ⟨1, 35, c⟩]
      = String.mk ("A".data ++ c.data ++ "B".data ++ c.data ++ "C".data) :=
    applyReplacements_two' "A".data "<!--#include virtual=\"/c.html\" -->".data
      "B".data "<!--#include virtual=\"/c.html\" -->".data "C".data c c _
      1 35 36 70 (by decide) (by decide) (by decide) (by decide) (by decide)
  simp only [processSsi, processSsiRecursive]
  rw [hscan]
  simp [processMatches, hres, hn1, hn2, hmf, hcon0, hcon1, hins0, hins1, hc,
    mergeDeps, applyReplacements_nil, happ]
  exact String.ext (by simp [strData_append, List.append_assoc])

/-! ## C10: ineligible include content is spliced without being scanned -/

/-- C10: when a directive's target exists but is not recursion-eligible, its
content is spliced in unscanned: for every content of `/t.txt` — including
content containing directive markers — the output keeps that content
verbatim and the dependency set contains only the outer target, never the
inner ones; concretely, an embedded inner directive survives verbatim and
its target stays out of the dependency set. -/
theorem ineligible_include_not_scanned :
    (∀ c : String,
      processSsi (fun p => if p = "/t.txt" then some c else none) "/i.html"
          "A<!--#include virtual=\"/t.txt\" -->B"
          { root := "/", maxDepth := 10, includeFileTypes := ["html"] }
        = { code := "A" ++ c ++ "B", deps := ["/t.txt"] }) ∧
    "/inner.html" ∉ (processSsi
        (fun p => if p = "/t.txt"
                  then some "<!--#include virtual=\"/inner.html\" -->" else none)
        "/i.html" "A<!--#include virtual=\"/t.txt\" -->B"
        { root := "/", maxDepth := 10, includeFileTypes := ["html"] }).deps := by
  have hmain : ∀ c : String,
      processSsi (fun p => if p = "/t.txt" then some c else none) "/i.html"
          "A<!--#include virtual=\"/t.txt\" -->B"
          { root := "/", maxDepth := 10, includeFileTypes := ["html"] }
        = { code := "A" ++ c ++ "B", deps := ["/t.txt"] } := by
    intro c
    have hscan : findDirectives "A<!--#include virtual=\"/t.txt\" -->B"
        = [⟨1, 33, "/t.txt"⟩] := by decide
    have hres : resolveIncludePath "/t.txt" "/i.html" "/" = "/t.txt" := by decide
    have hn1 : normalizePath "/i.html" = "/i.html" := by decide
    have hn2 : normalizePath "/t.txt" = "/t.txt" := by decide
    have hmf : matchesFileType "/t.txt" ["html"] DEFAULT_FILE_TYPE_MAP = false := by
      decide
    have hcon0 : ([] : List String).contains "/i.html" = false := by decide
    have hins0 : insertDep [] "/t.txt" = ["/t.txt"] := by decide
    have happ : applyReplacements "A<!--#include virtual=\"/t.txt\" -->B"
        [⟨1, 34, c⟩] = String.mk ("A".data ++ c.data ++ "B".data) :=
      applyReplacements_one' "A".data "<!--#include virtual=\"/t.txt\" -->".data
        "B".data c _ 1 34 (by decide) (by decide) (by decide)
    simp only [processSsi, processSsiRecursive]
    rw [hscan]
    simp [processMatches, hres, hn1, hn2, hmf, hcon0, hins0, mergeDeps,
      applyReplacements_nil, happ]
    exact String.ext (by simp [strData_append, List.append_assoc])
  refine ⟨hmain, ?_⟩
  rw [hmain "<!--#include virtual=\"/inner.html\" -->"]
  decide
theorem shouldProcess_iff (ift : List String) (r : String) (ftm : FileTypeMap) :
    ((if ift.length = 0 then false else matchesFileType r ift ftm) = true)
      ↔ (¬ift = [] ∧ matchesFileType r ift ftm = true) := by
  by_cases he : ift = []
  · subst he; simp
  · rw [if_neg (by simpa [List.length_eq_zero] using he)]
    simp [he]

theorem processMatches_deps_iff (fsys : String → Option String) (root : String)
    (ift : List String) (ftm : FileTypeMap)
    (recurse : String → String → ProcessResult) (filePath : String) :
    ∀ (ms : List SsiMatch) (deps : List String) (reps : List Replacement) (d : String),
      d ∈ (processMatches fsys root ift ftm recurse filePath ms deps reps).1 ↔
        d ∈ deps ∨
        (∃ m ∈ ms, d = normalizePath (resolveIncludePath m.virtualPath filePath root)) ∨
        (∃ m ∈ ms, ∃ c, fsys (resolveIncludePath m.virtualPath filePath root) = some c ∧
          (if ift.length = 0 then false
           else matchesFileType (resolveIncludePath m.virtualPath filePath root) ift ftm) = true ∧
          d ∈ (recurse (resolveIncludePath m.virtualPath filePath root) c).deps) := by
  intro ms
  induction ms with
  | nil => intro deps reps d; simp [processMatches]
  | cons m rest ih =>
    intro deps reps d
    rcases hfs : fsys (resolveIncludePath m.virtualPath filePath root) with _ | c
    · rw [show processMatches fsys root ift ftm recurse filePath (m :: rest) deps reps
          = processMatches fsys root ift ftm recurse filePath rest
              (insertDep deps (normalizePath (resolveIncludePath m.virtualPath filePath root)))
              (reps ++ [⟨m.index, m.index + m.length,
                "<!-- SSI Error: File not found: " ++
                  normalizePath (resolveIncludePath m.virtualPath filePath root) ++ " -->"⟩])
          from by simp [processMatches, hfs]]
      rw [ih, mem_insertDep]
      constructor
      · rintro ((h | h) | h | h)
        · exact .inl h
        · exact .inr (.inl ⟨m, List.mem_cons_self _ _, h⟩)
        · obtain ⟨m', hm', hd⟩ := h
          exact .inr (.inl ⟨m', List.mem_cons_of_mem _ hm', hd⟩)
        · obtain ⟨m', hm', hrest⟩ := h
          exact .inr (.inr ⟨m', List.mem_cons_of_mem _ hm', hrest⟩)
      · rintro (h | h | h)
        · exact .inl (.inl h)
        · obtain ⟨m', hm', hd⟩ := h
          rcases List.mem_cons.mp hm' with rfl | hm''
          · exact .inl (.inr hd)
          · exact .inr (.inl ⟨m', hm'', hd⟩)
        · obtain ⟨m', hm', c', hc', hrest⟩ := h
          rcases List.mem_cons.mp hm' with rfl | hm''
          · rw [hfs] at hc'; cases hc'
          · exact .inr (.inr ⟨m', hm'', c', hc', hrest⟩)
    · rcases hsp : (if ift.length = 0 then false
           else matchesFileType (resolveIncludePath m.virtualPath filePath root) ift ftm) with _ | _
      · have hP : ¬(¬ift = [] ∧
            matchesFileType (resolveIncludePath m.virtualPath filePath root) ift ftm = true) := by
          intro h
          rw [(shouldProcess_iff ift _ ftm).mpr h] at hsp
          cases hsp
        rw [show processMatches fsys root ift ftm recurse filePath (m :: rest) deps reps
            = processMatches fsys root ift ftm recurse filePath rest
                (mergeDeps (insertDep deps (normalizePath (resolveIncludePath m.virtualPath filePath root))) [])
                (reps ++ [⟨m.index, m.index + m.length, c⟩])
            from by simp [processMatches, hfs, hP]]
        rw [ih, mem_mergeDeps, mem_insertDep]
        constructor
        · rintro (((h | h) | h) | h | h)
          · exact .inl h
          · exact .inr (.inl ⟨m, List.mem_cons_self _ _, h⟩)
          · cases h
          · obtain ⟨m', hm', hd⟩ := h
            exact .inr (.inl ⟨m', List.mem_cons_of_mem _ hm', hd⟩)
          · obtain ⟨m', hm', hrest⟩ := h
            exact .inr (.inr ⟨m', List.mem_cons_of_mem _ hm', hrest⟩)
        · rintro (h | h | h)
          · exact .inl (.inl (.inl h))
          · obtain ⟨m', hm', hd⟩ := h
            rcases List.mem_cons.mp hm' with rfl | hm''
            · exact .inl (.inl (.inr hd))
            · exact .inr (.inl ⟨m', hm'', hd⟩)
          · obtain ⟨m', hm', c', hc', hspc, hrest⟩ := h
            rcases List.mem_cons.mp hm' with rfl | hm''
            · rw [hsp] at hspc; cases hspc
            · exact .inr (.inr ⟨m', hm'', c', hc', hspc, hrest⟩)
      · have hP : (¬ift = [] ∧
            matchesFileType (resolveIncludePath m.virtualPath filePath root) ift ftm = true) :=
          (shouldProcess_iff ift _ ftm).mp hsp
        rw [show processMatches fsys root ift ftm recurse filePath (m :: rest) deps reps
            = processMatches fsys root ift ftm recurse filePath rest
                (mergeDeps (insertDep deps (normalizePath (resolveIncludePath m.virtualPath filePath root)))
                  (recurse (resolveIncludePath m.virtualPath filePath root) c).deps)
                (reps ++ [⟨m.index, m.index + m.length,
                  (recurse (resolveIncludePath m.virtualPath filePath root) c).code⟩])
            from by simp [processMatches, hfs, hP.1, hP.2]]
        rw [ih, mem_mergeDeps, mem_insertDep]
        constructor
        · rintro (((h | h) | h) | h | h)
          · exact .inl h
          · exact .inr (.inl ⟨m, List.mem_cons_self _ _, h⟩)
          · exact .inr (.inr ⟨m, List.mem_cons_self _ _, c, hfs, hsp, h⟩)
          · obtain ⟨m', hm', hd⟩ := h
            exact .inr (.inl ⟨m', List.mem_cons_of_mem _ hm', hd⟩)
          · obtain ⟨m', hm', hrest⟩ := h
            exact .inr (.inr ⟨m', List.mem_cons_of_mem _ hm', hrest⟩)
        · rintro (h | h | h)
          · exact .inl (.inl (.inl h))
          · obtain ⟨m', hm', hd⟩ := h
            rcases List.mem_cons.mp hm' with rfl | hm''
            · exact .inl (.inl (.inr hd))
            · exact .inr (.inl ⟨m', hm'', hd⟩)
          · obtain ⟨m', hm', c', hc', hspc, hrest⟩ := h
            rcases List.mem_cons.mp hm' with rfl | hm''
            · rw [hfs] at hc'
              cases hc'
              exact .inl (.inr hrest)
            · exact .inr (.inr ⟨m', hm'', c', hc', hspc, hrest⟩)

/-! ## C4: dependency completeness -/

/-- C4: a call that does not itself return a cycle or depth diagnostic adds
the normalized resolved target of every scanned directive to its dependency
set unconditionally (before and regardless of the existence check), and its
dependency set is exactly the union of those direct targets and the
dependency sets returned by the recursive calls on existing,
recursion-eligible targets. -/
theorem deps_union_law (fsys : String → Option String) (root : String)
    (maxDepth : Nat) (ift : List String) (ftm : FileTypeMap) (gasNext : Nat)
    (filePath content : String) (seen : List String)
    (hcycle : seen.contains (normalizePath filePath) = false) :
    (∀ m ∈ findDirectives content,
      normalizePath (resolveIncludePath m.virtualPath filePath root)
        ∈ (processSsiRecursive fsys root maxDepth ift ftm (gasNext + 1)
            filePath content seen).deps) ∧
    (∀ d : String,
      d ∈ (processSsiRecursive fsys root maxDepth ift ftm (gasNext + 1)
            filePath content seen).deps ↔
        (∃ m ∈ findDirectives content,
          d = normalizePath (resolveIncludePath m.virtualPath filePath root)) ∨
        (∃ m ∈ findDirectives content, ∃ c : String,
          fsys (resolveIncludePath m.virtualPath filePath root) = some c ∧
          (if ift.length = 0 then false
           else matchesFileType (resolveIncludePath m.virtualPath filePath root)
                  ift ftm) = true ∧
          d ∈ (processSsiRecursive fsys root maxDepth ift ftm gasNext
                (resolveIncludePath m.virtualPath filePath root) c
                (seen ++ [normalizePath filePath])).deps)) := by
  have h2 : ∀ d : String,
      d ∈ (processSsiRecursive fsys root maxDepth ift ftm (gasNext + 1)
            filePath content seen).deps ↔
        (∃ m ∈ findDirectives content,
          d = normalizePath (resolveIncludePath m.virtualPath filePath root)) ∨
        (∃ m ∈ findDirectives content, ∃ c : String,
          fsys (resolveIncludePath m.virtualPath filePath root) = some c ∧
          (if ift.length = 0 then false
           else matchesFileType (resolveIncludePath m.virtualPath filePath root)
                  ift ftm) = true ∧
          d ∈ (processSsiRecursive fsys root maxDepth ift ftm gasNext
                (resolveIncludePath m.virtualPath filePath root) c
                (seen ++ [normalizePath filePath])).deps) := by
    intro d
    have hmem : normalizePath filePath ∉ seen := by
      intro h
      have h2 : seen.contains (normalizePath filePath) = true := List.elem_iff.mpr h
      rw [hcycle] at h2
      cases h2
    rw [show (processSsiRecursive fsys root maxDepth ift ftm (gasNext + 1)
            filePath content seen).deps
        = (processMatches fsys root ift ftm
            (fun ip ic => processSsiRecursive fsys root maxDepth ift ftm gasNext
              ip ic (seen ++ [normalizePath filePath]))
            filePath (findDirectives content).reverse [] []).1
      from by simp [processSsiRecursive, hmem]]
    rw [processMatches_deps_iff]
    simp only [List.mem_reverse, List.not_mem_nil, false_or]
  exact ⟨fun m hm => (h2 _).mpr (.inl ⟨m, hm, rfl⟩), h2⟩

/-- Witness for C4: in a document with two directives whose targets are both
missing, the first directive's normalized target is still in the returned
dependency set. -/
theorem deps_union_law_witness :
    normalizePath (resolveIncludePath "/x.html" "/i.html" "/")
      ∈ (processSsiRecursive (fun _ => none) "/" 10 [] DEFAULT_FILE_TYPE_MAP 10
          "/i.html"
          "<!--#include virtual=\"/x.html\" --><!--#include virtual=\"/y.html\" -->"
          []).deps :=
  (deps_union_law (fun _ => none) "/" 10 [] DEFAULT_FILE_TYPE_MAP 9 "/i.html"
      "<!--#include virtual=\"/x.html\" --><!--#include virtual=\"/y.html\" -->"
      [] (by decide)).1 ⟨0, 34, "/x.html"⟩ (by decide)

theorem contains_singleton_false (a b : String) (h : b ≠ a) :
    ([a] : List String).contains b = false := by
  rw [Bool.eq_false_iff]
  intro hcc
  exact h (by simpa using List.elem_iff.mp hcc)

/-! ## C5: per-directive failures are contained -/

/-- C5: a directive whose target cannot be accessed is replaced in place by
the FileNotFound diagnostic naming the normalized candidate path, and
processing continues with the remaining directives: in a document with a
failing first directive and a succeeding (non-eligible) second one, the
result splices the diagnostic at the first span and the file content at the
second, keeps all surrounding segments intact, and still returns a result
with both targets as dependencies (the call is total by construction and
never raises). -/
theorem failed_include_contained (fsys : String → Option String) (root : String)
    (maxDepth : Nat) (ift : List String) (ftm : FileTypeMap)
    (filePath content : String) (m1 m2 : SsiMatch) (c2 : String)
    (s0 d1 s1 d2 s2 : List Char)
    (hscan : findDirectives content = [m1, m2])
    (hfail : fsys (resolveIncludePath m1.virtualPath filePath root) = none)
    (hread : fsys (resolveIncludePath m2.virtualPath filePath root) = some c2)
    (helig : (if ift.length = 0 then false
              else matchesFileType (resolveIncludePath m2.virtualPath filePath root)
                     ift ftm) = false)
    (hne : normalizePath (resolveIncludePath m1.virtualPath filePath root)
           ≠ normalizePath (resolveIncludePath m2.virtualPath filePath root))
    (hdec : content.data = s0 ++ d1 ++ s1 ++ d2 ++ s2)
    (h1 : m1.index = s0.length)
    (h2 : m1.index + m1.length = s0.length + d1.length)
    (h3 : m2.index = s0.length + d1.length + s1.length)
    (h4 : m2.index + m2.length = s0.length + d1.length + s1.length + d2.length)
    (hdepth : maxDepth ≠ 0) :
    processSsi fsys filePath content
        { root := root, maxDepth := maxDepth,
          includeFileTypes := ift, fileTypeMap := ftm }
      = { code := String.mk (s0 ++
            ("<!-- SSI Error: File not found: " ++
              normalizePath (resolveIncludePath m1.virtualPath filePath root) ++
              " -->").data ++ s1 ++ c2.data ++ s2),
          deps := [normalizePath (resolveIncludePath m2.virtualPath filePath root),
                   normalizePath (resolveIncludePath m1.virtualPath filePath root)] } := by
  obtain ⟨g, rfl⟩ : ∃ g, maxDepth = g + 1 := ⟨maxDepth - 1, by omega⟩
  have hcond : ¬(¬ift = [] ∧
      matchesFileType (resolveIncludePath m2.virtualPath filePath root) ift ftm = true) := by
    intro h
    rw [(shouldProcess_iff ift _ ftm).mpr h] at helig
    cases helig
  have hcontains : ([normalizePath (resolveIncludePath m2.virtualPath filePath root)] :
      List String).contains (normalizePath (resolveIncludePath m1.virtualPath filePath root))
      = false := contains_singleton_false _ _ hne
  have happ := applyReplacements_two' s0 d1 s1 d2 s2
    ("<!-- SSI Error: File not found: " ++
      normalizePath (resolveIncludePath m1.virtualPath filePath root) ++ " -->") c2
    content m1.index (m1.index + m1.length) m2.index (m2.index + m2.length)
    hdec h1 h2 h3 h4
  simp only [processSsi, processSsiRecursive]
  rw [hscan]
  simp [processMatches, hfail, hread, hcond, mergeDeps, insertDep, hcontains,
    applyReplacements_nil, happ]
  exact hne

/-- Witness for C5: target of the first directive missing, second present —
the diagnostic appears exactly at the first span, the second include still
resolves, the surrounding text survives. -/
theorem failed_include_contained_witness :
    processSsi (fun p => if p = "/y.html" then some "OK" else none) "/i.html"
        "A<!--#include virtual=\"/x.html\" -->B<!--#include virtual=\"/y.html\" -->C"
        { root := "/", maxDepth := 10 }
      = { code := "A<!-- SSI Error: File not found: /x.html -->BOKC",
          deps := ["/y.html", "/x.html"] } := by
  have h := failed_include_contained
    (fun p => if p = "/y.html" then some "OK" else none) "/" 10 []
    DEFAULT_FILE_TYPE_MAP "/i.html"
    "A<!--#include virtual=\"/x.html\" -->B<!--#include virtual=\"/y.html\" -->C"
    ⟨1, 34, "/x.html"⟩ ⟨36, 34, "/y.html"⟩ "OK"
    "A".data "<!--#include virtual=\"/x.html\" -->".data "B".data
    "<!--#include virtual=\"/y.html\" -->".data "C".data
    (by decide) (by decide) (by decide) (by decide) (by decide) (by decide)
    (by decide) (by decide) (by decide) (by decide) (by decide)
  exact h.trans (by decide)

/-- Witness for C9 at a concrete directive-free include. -/
theorem sibling_branches_share_no_chain_witness :
    processSsi (fun p => if p = "/c.html" then some "<p>hi</p>" else none) "/i.html"
        "A<!--#include virtual=\"/c.html\" -->B<!--#include virtual=\"/c.html\" -->C"
        { root := "/", maxDepth := 10, includeFileTypes := ["html"] }
      = { code := "A<p>hi</p>B<p>hi</p>C", deps := ["/c.html"] } :=
  (sibling_branches_share_no_chain "<p>hi</p>" (by decide)).trans (by decide)

/-! ## C7: the scanner recognizes exactly the directive grammar -/

/-- The directive grammar as the specification states it: case-sensitive
`<!--#include`, whitespace, `virtual`, optional whitespace, `=`, optional
whitespace, a double-quoted string, optional whitespace, `-->`; `len` is the
length of the matched span and `tgt` the quoted target. -/
def DirectiveGrammarAt (cs : List Char) (len : Nat) (tgt : List Char) : Prop :=
  ∃ ws1 ws2 ws3 ws4 rest : List Char,
    cs = "<!--#include".data ++ ws1 ++ "virtual".data ++ ws2 ++ ['='] ++ ws3 ++
         ['"'] ++ tgt ++ ['"'] ++ ws4 ++ "-->".data ++ rest ∧
    ws1 ≠ [] ∧ (∀ c ∈ ws1, isSpaceJs c = true) ∧
    (∀ c ∈ ws2, isSpaceJs c = true) ∧ (∀ c ∈ ws3, isSpaceJs c = true) ∧
    (∀ c ∈ ws4, isSpaceJs c = true) ∧
    tgt ≠ [] ∧ (∀ c ∈ tgt, c ≠ '"') ∧
    len = 12 + ws1.length + 7 + ws2.length + 1 + ws3.length + 1 + tgt.length +
          1 + ws4.length + 3

theorem dropLit_append (l cs : List Char) : dropLit l (l ++ cs) = some cs := by
  induction l with
  | nil => rfl
  | cons a as ih => simp [dropLit, ih]

theorem dropLit_eq_some (l : List Char) :
    ∀ cs r : List Char, dropLit l cs = some r → cs = l ++ r := by
  induction l with
  | nil => intro cs r h; cases h; rfl
  | cons a as ih =>
    intro cs r h
    cases cs with
    | nil => cases h
    | cons c cs' =>
      unfold dropLit at h
      split at h
      · next heq => cases heq; simpa using ih cs' r h
      · cases h

theorem takeWhile_all_append (p : Char → Bool) (ws : List Char)
    (h : ∀ c ∈ ws, p c = true) (c : Char) (hc : p c = false) (r : List Char) :
    (ws ++ c :: r).takeWhile p = ws := by
  induction ws with
  | nil => simp [List.takeWhile_cons, hc]
  | cons a as ih =>
    have ha : p a = true := h a (List.mem_cons_self _ _)
    simp [List.takeWhile_cons, ha, ih (fun x hx => h x (List.mem_cons_of_mem _ hx))]

theorem dropWhile_all_append (p : Char → Bool) (ws : List Char)
    (h : ∀ c ∈ ws, p c = true) (c : Char) (hc : p c = false) (r : List Char) :
    (ws ++ c :: r).dropWhile p = c :: r := by
  induction ws with
  | nil => simp [List.dropWhile_cons, hc]
  | cons a as ih =>
    have ha : p a = true := h a (List.mem_cons_self _ _)
    simp [List.dropWhile_cons, ha, ih (fun x hx => h x (List.mem_cons_of_mem _ hx))]

theorem matchDirectiveAt_complete (cs : List Char) (len : Nat) (tgt : List Char)
    (h : DirectiveGrammarAt cs len tgt) : matchDirectiveAt cs = some (len, tgt) := by
  obtain ⟨ws1, ws2, ws3, ws4, rest, hcs, h1, hw1, hw2, hw3, hw4, ht1, ht2, hlen⟩ := h
  subst hcs hlen
  have ht2' : ∀ c ∈ tgt, (fun c => !decide (c = '"')) c = true := by
    intro c hc
    simpa using ht2 c hc
  have hv : isSpaceJs 'v' = false := by decide
  have he : isSpaceJs '=' = false := by decide
  have hq : isSpaceJs '"' = false := by decide
  have hm : isSpaceJs '-' = false := by decide
  have hqq : (fun c => !decide (c = '"')) '"' = false := by decide
  have h1' : ¬ ws1.length = 0 := by simpa [List.length_eq_zero] using h1
  have ht1' : ¬ tgt.length = 0 := by simpa [List.length_eq_zero] using ht1
  simp only [List.append_assoc, List.cons_append, List.nil_append]
  simp [matchDirectiveAt, dropLit,
    takeWhile_all_append _ ws1 hw1 'v' hv, dropWhile_all_append _ ws1 hw1 'v' hv,
    takeWhile_all_append _ ws2 hw2 '=' he, dropWhile_all_append _ ws2 hw2 '=' he,
    takeWhile_all_append _ ws3 hw3 '"' hq, dropWhile_all_append _ ws3 hw3 '"' hq,
    takeWhile_all_append _ tgt ht2' '"' hqq, dropWhile_all_append _ tgt ht2' '"' hqq,
    takeWhile_all_append _ ws4 hw4 '-' hm, dropWhile_all_append _ ws4 hw4 '-' hm,
    h1', ht1']

theorem matchDirectiveAt_sound (cs : List Char) (len : Nat) (tgt : List Char)
    (h : matchDirectiveAt cs = some (len, tgt)) : DirectiveGrammarAt cs len tgt := by
  unfold matchDirectiveAt at h
  split at h
  · cases h
  · next cs1 hd1 =>
    dsimp only at h
    split at h
    · cases h
    · next h1 =>
      split at h
      · cases h
      · next cs3 hd2 =>
        split at h
        · cases h
        · next cs5 hd3 =>
          split at h
          · cases h
          · next cs7 hd4 =>
            split at h
            · cases h
            · next ht0 =>
              split at h
              · cases h
              · next cs9 hd5 =>
                split at h
                · cases h
                · next cs11 hd6 =>
                  rw [Option.some.injEq, Prod.mk.injEq] at h
                  obtain ⟨hlen, htgt⟩ := h
                  refine ⟨cs1.takeWhile isSpaceJs, cs3.takeWhile isSpaceJs,
                    cs5.takeWhile isSpaceJs, cs9.takeWhile isSpaceJs, cs11,
                    ?_, ?_, ?_, ?_, ?_, ?_, ?_, ?_, ?_⟩
                  · have e1 := dropLit_eq_some _ _ _ hd1
                    have e3 := dropLit_eq_some _ _ _ hd2
                    have e5 := dropLit_eq_some _ _ _ hd3
                    have e7 := dropLit_eq_some _ _ _ hd4
                    have e9 := dropLit_eq_some _ _ _ hd5
                    have e11 := dropLit_eq_some _ _ _ hd6
                    have hdata1 : ("<!--#include".data : List Char)
                        = ['<','!','-','-','#','i','n','c','l','u','d','e'] := rfl
                    have hdata2 : ("virtual".data : List Char)
                        = ['v','i','r','t','u','a','l'] := rfl
                    have hdata3 : ("-->".data : List Char) = ['-','-','>'] := rfl
                    rw [← htgt]
                    simp only [hdata1, hdata2, hdata3, List.cons_append,
                      List.nil_append, List.append_assoc] at e1 e3 e5 e7 e9 e11 ⊢
                    rw [← e11, List.takeWhile_append_dropWhile,
                      ← e9, List.takeWhile_append_dropWhile,
                      ← e7, List.takeWhile_append_dropWhile,
                      ← e5, List.takeWhile_append_dropWhile,
                      ← e3, List.takeWhile_append_dropWhile, ← e1]
                  · intro hne
                    exact h1 (by rw [hne]; rfl)
                  · intro c hc; exact List.mem_takeWhile_imp hc
                  · intro c hc; exact List.mem_takeWhile_imp hc
                  · intro c hc; exact List.mem_takeWhile_imp hc
                  · intro c hc; exact List.mem_takeWhile_imp hc
                  · rw [← htgt]
                    intro hne
                    exact ht0 (by rw [hne]; rfl)
                  · intro c hc
                    rw [← htgt] at hc
                    simpa using List.mem_takeWhile_imp hc
                  · rw [← hlen, ← htgt]

theorem grammar_len_bounds (cs : List Char) (len : Nat) (tgt : List Char)
    (h : DirectiveGrammarAt cs len tgt) : 27 ≤ len ∧ len ≤ cs.length := by
  obtain ⟨ws1, ws2, ws3, ws4, rest, hcs, h1, _, _, _, _, ht1, _, hlen⟩ := h
  have hl := congrArg List.length hcs
  simp [List.length_append] at hl
  have hw1 : 1 ≤ ws1.length := List.length_pos.mpr h1
  have htl : 1 ≤ tgt.length := List.length_pos.mpr ht1
  omega

theorem grammar_not_nil (len : Nat) (tgt : List Char) :
    ¬ DirectiveGrammarAt [] len tgt := by
  intro h
  obtain ⟨ws1, ws2, ws3, ws4, rest, hcs, _⟩ := h
  have hl := congrArg List.length hcs
  simp [List.length_append] at hl

theorem scanAux_sound : ∀ (fuel : Nat) (cs : List Char) (i : Nat),
    cs.length ≤ fuel → ∀ m ∈ scanAux fuel cs i,
      i ≤ m.index ∧ m.index - i + m.length ≤ cs.length ∧
      DirectiveGrammarAt (cs.drop (m.index - i)) m.length m.virtualPath.data := by
  intro fuel
  induction fuel with
  | zero => intro cs i _ m hm; simp [scanAux] at hm
  | succ f ih =>
    intro cs i hlen m hm
    cases cs with
    | nil => simp [scanAux] at hm
    | cons c rest =>
      unfold scanAux at hm
      rcases hmt : matchDirectiveAt (c :: rest) with _ | ⟨len0, tgt0⟩
      · rw [hmt] at hm
        have hsub : rest.length ≤ f := by
          simp at hlen; omega
        obtain ⟨ha, hb, hg⟩ := ih rest (i + 1) hsub m hm
        refine ⟨by omega, ?_, ?_⟩
        · simp only [List.length_cons]
          omega
        · have hstep : (c :: rest).drop (m.index - i) = rest.drop (m.index - i - 1) := by
            obtain ⟨k, hk⟩ : ∃ k, m.index - i = k + 1 := ⟨m.index - i - 1, by omega⟩
            rw [hk, List.drop_succ_cons, Nat.add_sub_cancel]
          rw [hstep]
          have harith : m.index - (i + 1) = m.index - i - 1 := by omega
          rwa [harith] at hg
      · rw [hmt] at hm
        have hgl := grammar_len_bounds _ _ _ (matchDirectiveAt_sound _ _ _ hmt)
        have hgl2 : len0 ≤ rest.length + 1 := by simpa using hgl.2
        rcases List.mem_cons.mp hm with rfl | hm'
        · refine ⟨le_refl _, ?_, ?_⟩
          · simpa using hgl.2
          · simpa using matchDirectiveAt_sound _ _ _ hmt
        · have hsub : (rest.drop (len0 - 1)).length ≤ f := by
            simp only [List.length_drop, List.length_cons] at hlen ⊢
            omega
          obtain ⟨ha, hb, hg⟩ := ih _ (i + len0) hsub m hm'
          simp only [List.length_drop] at hb
          simp only [List.length_cons] at hlen
          refine ⟨by omega, ?_, ?_⟩
          · simp only [List.length_cons]
            omega
          · rw [List.drop_drop] at hg
            have hstep : (c :: rest).drop (m.index - i) = rest.drop (m.index - i - 1) := by
              obtain ⟨k, hk⟩ : ∃ k, m.index - i = k + 1 := ⟨m.index - i - 1, by omega⟩
              rw [hk, List.drop_succ_cons, Nat.add_sub_cancel]
            rw [hstep]
            have harith : len0 - 1 + (m.index - (i + len0)) = m.index - i - 1 := by omega
            rwa [harith] at hg

theorem scanAux_chain : ∀ (fuel : Nat) (cs : List Char) (i : Nat),
    List.Chain' (fun a b => a.index + a.length ≤ b.index) (scanAux fuel cs i) ∧
    (∀ m ∈ scanAux fuel cs i, i ≤ m.index) := by
  intro fuel
  induction fuel with
  | zero => intro cs i; simp [scanAux]
  | succ f ih =>
    intro cs i
    cases cs with
    | nil => simp [scanAux]
    | cons c rest =>
      unfold scanAux
      rcases hmt : matchDirectiveAt (c :: rest) with _ | ⟨len0, tgt0⟩
      · exact ⟨(ih rest (i + 1)).1, fun m hm => by
          have := (ih rest (i + 1)).2 m hm; omega⟩
      · refine ⟨List.chain'_cons'.mpr ⟨?_, (ih _ (i + len0)).1⟩, ?_⟩
        · intro b hb
          have hmem := List.mem_of_mem_head? hb
          simpa using (ih _ (i + len0)).2 b hmem
        · intro m hm
          rcases List.mem_cons.mp hm with rfl | hm'
          · exact le_refl _
          · have := (ih _ (i + len0)).2 m hm'
            omega

theorem scanAux_complete : ∀ (fuel : Nat) (cs : List Char) (i : Nat),
    cs.length ≤ fuel → ∀ (j len : Nat) (tgt : List Char),
      DirectiveGrammarAt (cs.drop j) len tgt →
      ∃ m ∈ scanAux fuel cs i, m.index ≤ i + j ∧ i + j < m.index + m.length := by
  intro fuel
  induction fuel with
  | zero =>
    intro cs i hlen j len tgt hg
    have : cs = [] := List.length_eq_zero.mp (by omega)
    subst this
    simp at hg
    exact absurd hg (grammar_not_nil _ _)
  | succ f ih =>
    intro cs i hlen j len tgt hg
    cases cs with
    | nil =>
      simp at hg
      exact absurd hg (grammar_not_nil _ _)
    | cons c rest =>
      unfold scanAux
      rcases hmt : matchDirectiveAt (c :: rest) with _ | ⟨len0, tgt0⟩
      · cases j with
        | zero =>
          rw [List.drop_zero] at hg
          rw [matchDirectiveAt_complete _ _ _ hg] at hmt
          cases hmt
        | succ j' =>
          rw [List.drop_succ_cons] at hg
          have hsub : rest.length ≤ f := by simp at hlen; omega
          obtain ⟨m, hm, h1, h2⟩ := ih rest (i + 1) hsub j' len tgt hg
          exact ⟨m, hm, by omega, by omega⟩
      · have hgl := grammar_len_bounds _ _ _ (matchDirectiveAt_sound _ _ _ hmt)
        by_cases hcover : j < len0
        · refine ⟨⟨i, len0, String.mk tgt0⟩, List.mem_cons_self _ _, ?_, ?_⟩
          · show i ≤ i + j
            omega
          · show i + j < i + len0
            omega
        · cases j with
          | zero => omega
          | succ j' =>
            rw [List.drop_succ_cons] at hg
            have hg' : DirectiveGrammarAt ((rest.drop (len0 - 1)).drop (j' + 1 - len0))
                len tgt := by
              rw [List.drop_drop]
              have : len0 - 1 + (j' + 1 - len0) = j' := by omega
              rwa [this]
            have hsub : (rest.drop (len0 - 1)).length ≤ f := by
              simp [List.length_drop]
              simp at hlen
              omega
            obtain ⟨m, hm, h1, h2⟩ := ih _ (i + len0) hsub (j' + 1 - len0) len tgt hg'
            exact ⟨m, List.mem_cons_of_mem _ hm, by omega, by omega⟩

/-- C7: the scanner recognizes exactly the directive grammar: every reported
match carries the original offset of a grammar occurrence lying inside the
buffer; the matches are non-overlapping and produced in one left-to-right
pass; and every position at which the grammar matches is covered by some
reported match — in particular text with no grammar occurrence (any other
comment-like text) produces no match and is left untouched. -/
theorem scanner_matches_exactly_the_grammar (content : String) :
    (∀ m ∈ findDirectives content,
      m.index + m.length ≤ content.data.length ∧
      DirectiveGrammarAt (content.data.drop m.index) m.length m.virtualPath.data) ∧
    List.Chain' (fun a b => a.index + a.length ≤ b.index) (findDirectives content) ∧
    (∀ (j len : Nat) (tgt : List Char),
      DirectiveGrammarAt (content.data.drop j) len tgt →
      ∃ m ∈ findDirectives content, m.index ≤ j ∧ j < m.index + m.length) := by
  unfold findDirectives
  refine ⟨?_, (scanAux_chain _ _ _).1, ?_⟩
  · intro m hm
    obtain ⟨h1, h2, h3⟩ := scanAux_sound _ _ _ (le_refl _) m hm
    constructor
    · omega
    · simpa using h3
  · intro j len tgt hg
    obtain ⟨m, hm, h1, h2⟩ := scanAux_complete _ _ _ (le_refl _) j len tgt hg
    exact ⟨m, hm, by omega, by omega⟩

/-- Witness for C7: the grammar occurrence at offset 0 of a minimal
directive is covered by a reported match. -/
theorem scanner_matches_exactly_the_grammar_witness :
    ∃ m ∈ findDirectives "<!--#include virtual=\"x\" -->",
      m.index ≤ 0 ∧ 0 < m.index + m.length := by
  apply (scanner_matches_exactly_the_grammar "<!--#include virtual=\"x\" -->").2.2
    0 28 ['x']
  exact ⟨[' '], [], [], [' '], [], by decide, by decide, by decide, by decide,
    by decide, by decide, by decide, by decide, by decide⟩

/-! ## C6: processing order of directives within one level -/

theorem chain_le_imp_lt (l : List SsiMatch) (hall : ∀ m ∈ l, 1 ≤ m.length)
    (h : List.Chain' (fun a b => a.index + a.length ≤ b.index) l) :
    List.Chain' (fun a b => a.index < b.index) l := by
  induction l with
  | nil => exact List.chain'_nil
  | cons a t ih =>
    rw [List.chain'_cons'] at h ⊢
    refine ⟨?_, ih (fun m hm => hall m (List.mem_cons_of_mem _ hm)) h.2⟩
    intro b hb
    have := h.1 b hb
    have ha := hall a (List.mem_cons_self _ _)
    omega

/-- Corrected C6: within one level the per-directive loop visits the
directives in reverse document order — the directive with the highest start
offset is processed first and the lowest last (`for (let i =
matches.length - 1; i >= 0; i--)`), so the visit-order offset list is the
reverse of the strictly increasing discovery order. -/
theorem directives_processed_in_reverse_document_order (content : String) :
    processedOrder content
      = ((findDirectives content).map (fun m => m.index)).reverse ∧
    List.Chain' (fun a b => a < b)
      ((findDirectives content).map (fun m => m.index)) ∧
    List.Chain' (fun a b => b < a) (processedOrder content) := by
  have hinc : List.Chain' (fun a b => a < b)
      ((findDirectives content).map (fun m => m.index)) := by
    rw [List.chain'_map]
    apply chain_le_imp_lt
    · intro m hm
      have := grammar_len_bounds _ _ _
        ((scanner_matches_exactly_the_grammar content).1 m hm).2
      omega
    · exact (scanner_matches_exactly_the_grammar content).2.1
  refine ⟨rfl, hinc, ?_⟩
  unfold processedOrder
  rw [List.chain'_reverse]
  exact hinc

/-- Counterexample to C6 as stated: in a two-directive document the loop
visits offset 34 before offset 0, and the dependency set's insertion order
(observable through the JS `Set`) lists the second directive's target first. -/
theorem directives_processed_in_document_order_counterexample :
    processedOrder
        "<!--#include virtual=\"/x.html\" --><!--#include virtual=\"/y.html\" -->"
      = [34, 0] ∧
    ((findDirectives
        "<!--#include virtual=\"/x.html\" --><!--#include virtual=\"/y.html\" -->").map
          (fun m => m.index)) = [0, 34] ∧
    (processSsi (fun _ => none) "/i.html"
        "<!--#include virtual=\"/x.html\" --><!--#include virtual=\"/y.html\" -->"
        { root := "/", maxDepth := 10 }).deps
      = ["/y.html", "/x.html"] := by
  refine ⟨by decide, by decide, by decide⟩

/-! ## C8: the file-type classifier -/

theorem indexOf_eq_length_takeWhile (a : Char) (cs : List Char) :
    List.indexOf a cs = (cs.takeWhile (fun c => c ≠ a)).length := by
  induction cs with
  | nil => rfl
  | cons c cs' ih =>
    by_cases hca : c = a
    · subst hca
      simp [List.indexOf_cons, List.takeWhile_cons]
    · have hbe : (c == a) = false := by simpa using hca
      simp [List.indexOf_cons, hbe, List.takeWhile_cons, hca, ih]

theorem dropWhile_ne_of_mem (a : Char) (cs : List Char) (h : a ∈ cs) :
    ∃ rr, cs.dropWhile (fun c => c ≠ a) = a :: rr := by
  induction cs with
  | nil => cases h
  | cons c cs' ih =>
    rw [List.dropWhile_cons]
    by_cases hca : c = a
    · subst hca
      rw [if_neg (by simp)]
      exact ⟨cs', rfl⟩
    · rw [if_pos (by simpa using hca)]
      refine ih ?_
      rcases List.mem_cons.mp h with rfl | h'
      · exact absurd rfl hca
      · exact h'

/-- Characterization of `getFileExtension`: the extension is the dot plus
the (reversed) maximal dot-free suffix, lower-cased; it is `none` when there
is no dot or nothing follows the final dot. -/
theorem getFileExtension_spec (p : String) :
    getFileExtension p
      = if '.' ∈ p.data then
          (if (p.data.reverse.takeWhile (fun c => c ≠ '.')).reverse = [] then none
           else some (toLowerStr (String.mk
             ('.' :: (p.data.reverse.takeWhile (fun c => c ≠ '.')).reverse))))
        else none := by
  by_cases hmem : '.' ∈ p.data
  · have hmemr : '.' ∈ p.data.reverse := by simpa using hmem
    obtain ⟨rr, hrr⟩ := dropWhile_ne_of_mem '.' p.data.reverse hmemr
    set w := p.data.reverse.takeWhile (fun c => c ≠ '.') with hw
    have hsplit : p.data.reverse = w ++ '.' :: rr := by
      rw [hw, ← hrr]
      exact (List.takeWhile_append_dropWhile _ _).symm
    have hdata : p.data = rr.reverse ++ '.' :: w.reverse := by
      have := congrArg List.reverse hsplit
      simpa [List.reverse_append] using this
    have hlen : p.data.length = rr.length + 1 + w.length := by
      rw [hdata]; simp [List.length_append]; omega
    have hidx : List.indexOf '.' p.data.reverse = w.length := by
      rw [indexOf_eq_length_takeWhile, hw]
    have hdot : p.data.length - 1 - List.indexOf '.' p.data.reverse = rr.length := by
      rw [hidx]; omega
    have hdrop : p.data.drop (rr.length) = '.' :: w.reverse := by
      rw [hdata]
      have := drop_exact rr.reverse ('.' :: w.reverse)
      simpa using this
    unfold getFileExtension
    rw [if_pos (by simpa using hmem)]
    dsimp only
    rw [hdot, hdrop, if_pos hmem]
    by_cases hwnil : w.reverse = []
    · rw [if_pos hwnil, hwnil]
      simp
    · rw [if_neg hwnil]
      have : ('.' :: w.reverse).length > 1 := by
        cases hwr : w.reverse with
        | nil => exact absurd hwr hwnil
        | cons x xs => simp
      rw [if_pos this]
  · unfold getFileExtension
    rw [if_neg (by simpa using hmem), if_neg hmem]

/-- The classifier rule exactly as the specification's decision rule words
it (modelled from the spec for the comparison): the extension is the
lower-cased substring starting at the final dot (none when there is no
dot), and the result is true iff that extension appears in the extension
list of at least one enabled type-name (looked up as written). -/
def matchesFileTypeClaim (p : String) (types : List String)
    (table : FileTypeMap) : Bool :=
  match (if '.' ∈ p.data then
           some (toLowerStr (String.mk
             ('.' :: (p.data.reverse.takeWhile (fun c => c ≠ '.')).reverse)))
         else none) with
  | none => false
  | some ext => types.any (fun t => (lookupType table t).contains ext)

/-- Counterexample to C8 as stated, in both directions: a path ending in
its only dot has extension `"."` under the claim's reading (true when `"."`
is listed) but the code returns false; and the code folds the type-name to
lower case before the table lookup, so an upper-case enabled name matches
where the claim's literal reading does not. -/
theorem classifier_extension_rule_counterexample :
    (matchesFileType "a." ["t"] [("t", ["."])] = false ∧
     matchesFileTypeClaim "a." ["t"] [("t", ["."])] = true) ∧
    (matchesFileType "a.x" ["T"] [("t", [".x"])] = true ∧
     matchesFileTypeClaim "a.x" ["T"] [("t", [".x"])] = false) := by
  refine ⟨⟨by decide, by decide⟩, ⟨by decide, by decide⟩⟩

/-- Amended C8: the classifier returns true iff the path has a final dot
that is not its last character and the lower-cased substring from that dot
appears in the table entry for the lower-cased enabled type-name (missing
entries read as empty) of at least one enabled name; an empty enabled list
always yields false. -/
theorem classifier_extension_rule (p : String) (types : List String)
    (table : FileTypeMap) :
    (matchesFileType p types table = true ↔
      ('.' ∈ p.data ∧ (p.data.reverse.takeWhile (fun c => c ≠ '.')).reverse ≠ [] ∧
        ∃ t ∈ types,
          toLowerStr (String.mk
            ('.' :: (p.data.reverse.takeWhile (fun c => c ≠ '.')).reverse))
          ∈ lookupType table (toLowerStr t))) ∧
    (types = [] → matchesFileType p types table = false) := by
  constructor
  · unfold matchesFileType
    rw [getFileExtension_spec]
    by_cases hmem : '.' ∈ p.data
    · rw [if_pos hmem]
      by_cases hwnil : (p.data.reverse.takeWhile (fun c => c ≠ '.')).reverse = []
      · rw [if_pos hwnil]
        constructor
        · intro h
          simp at h
        · rintro ⟨_, hne, _⟩
          exact absurd hwnil hne
      · rw [if_neg hwnil]
        simp only [List.any_eq_true]
        constructor
        · rintro ⟨t, ht, hc⟩
          exact ⟨hmem, hwnil, t, ht, List.elem_iff.mp hc⟩
        · rintro ⟨_, _, t, ht, hc⟩
          exact ⟨t, ht, List.elem_iff.mpr hc⟩
    · rw [if_neg hmem]
      simp [hmem]
  · intro htypes
    subst htypes
    unfold matchesFileType
    cases getFileExtension p <;> simp

/-- Witness for C8's amended rule: the empty enabled list yields false. -/
theorem classifier_extension_rule_witness :
    matchesFileType "/h.html" [] DEFAULT_FILE_TYPE_MAP = false :=
  (classifier_extension_rule "/h.html" [] DEFAULT_FILE_TYPE_MAP).2 rfl

/-! ## C2: the depth law on a chain of nested includes -/

/-! ## C2: the depth law, on a parametric chain of includes -/

/-- Name of the n-th file of the include chain fixture
(`/f.html`, `/ff.html`, `/fff.html`, …). -/
def chainName (n : Nat) : String :=
  "/" ++ String.mk (List.replicate (n + 1) 'f') ++ ".html"

/-- Content of the n-th chain file for a chain with files `0..N`: below
level `N` it includes the next file, the last file is a plain leaf. -/
def chainContent (N n : Nat) : String :=
  if n < N then "[<!--#include virtual=\"" ++ chainName (n + 1) ++ "\" -->]"
  else "leaf"

/-- Filesystem fixture for the chain: file `chainName n` (for `n ≤ N`) has
content `chainContent N n`; everything else is missing. -/
def chainFs (N : Nat) : String → Option String := fun p =>
  if 1 ≤ ((p.data.drop 1).takeWhile (fun c => c = 'f')).length ∧
     p = chainName (((p.data.drop 1).takeWhile (fun c => c = 'f')).length - 1) ∧
     ((p.data.drop 1).takeWhile (fun c => c = 'f')).length - 1 ≤ N then
    some (chainContent N (((p.data.drop 1).takeWhile (fun c => c = 'f')).length - 1))
  else none

/-- A kernel wrapped in `j` levels of brackets (the fully or partially
expanded chain). -/
def nestedBrack : Nat → String → String
  | 0, s => s
  | j + 1, s => "[" ++ nestedBrack j s ++ "]"

theorem chainName_data (n : Nat) :
    (chainName n).data = '/' :: (List.replicate (n + 1) 'f' ++ ".html".data) := rfl

theorem chainName_inj : Function.Injective chainName := by
  intro a b h
  have hl := congrArg (fun s => s.data.length) h
  simp [chainName_data, List.length_append] at hl
  omega

theorem chainName_tail_chars (n : Nat) :
    ∀ c ∈ List.replicate (n + 1) 'f' ++ ".html".data,
      c = 'f' ∨ c ∈ (".html".data : List Char) := by
  intro c hc
  rcases List.mem_append.mp hc with h | h
  · exact .inl (List.eq_of_mem_replicate h)
  · exact .inr h

theorem chainName_no_quote (n : Nat) : ∀ c ∈ (chainName n).data, c ≠ '"' := by
  intro c hc
  rw [chainName_data] at hc
  rcases List.mem_cons.mp hc with rfl | hc'
  · decide
  · rcases chainName_tail_chars n c hc' with rfl | h
    · decide
    · have : c ∈ (['.', 'h', 't', 'm', 'l'] : List Char) := h
      fin_cases this <;> decide

theorem chainName_tail_no_slash (n : Nat) :
    ∀ c ∈ List.replicate (n + 1) 'f' ++ ".html".data, c ≠ '/' := by
  intro c hc
  rcases chainName_tail_chars n c hc with rfl | h
  · decide
  · have : c ∈ (['.', 'h', 't', 'm', 'l'] : List Char) := h
    fin_cases this <;> decide

theorem chainName_no_backslash (n : Nat) : ∀ c ∈ (chainName n).data, c ≠ '\\' := by
  intro c hc
  rw [chainName_data] at hc
  rcases List.mem_cons.mp hc with rfl | hc'
  · decide
  · rcases chainName_tail_chars n c hc' with rfl | h
    · decide
    · have : c ∈ (['.', 'h', 't', 'm', 'l'] : List Char) := h
      fin_cases this <;> decide

theorem chainName_ne_nil (n : Nat) : (chainName n).data ≠ [] := by
  rw [chainName_data]; simp

theorem splitSegsAux_no_slash (cs : List Char) :
    ∀ acc : List Char, (∀ c ∈ cs, c ≠ '/') →
      splitSegsAux acc cs = [String.mk (acc.reverse ++ cs)] := by
  induction cs with
  | nil => intro acc _; simp [splitSegsAux]
  | cons c cs' ih =>
    intro acc h
    have hc : c ≠ '/' := h c (List.mem_cons_self _ _)
    rw [splitSegsAux, if_neg hc, ih (c :: acc) (fun x hx => h x (List.mem_cons_of_mem _ hx))]
    simp

theorem map_backslash_id (l : List Char) (h : ∀ c ∈ l, c ≠ '\\') :
    l.map (fun c => if c = '\\' then '/' else c) = l := by
  induction l with
  | nil => rfl
  | cons c cs ih =>
    have hc : c ≠ '\\' := h c (List.mem_cons_self _ _)
    simp [hc, ih (fun x hx => h x (List.mem_cons_of_mem _ hx))]

theorem normSegs_single (s : String) (h0 : s ≠ "") (h1 : s ≠ ".") (h2 : s ≠ "..") :
    normSegs true [] [s] = [s] := by
  unfold normSegs
  rw [if_neg (by simp [h0, h1])]
  rw [if_neg h2]
  rfl

theorem normalizeParts_slash_tail (tail : List Char) (hns : ∀ c ∈ tail, c ≠ '/')
    (h0 : String.mk tail ≠ "") (h1 : String.mk tail ≠ ".") (h2 : String.mk tail ≠ "..")
    (p : String) (hp : p.data = '/' :: tail) :
    normalizeParts p = "/" ++ String.mk tail := by
  have habs : startsWithSlash p = true := by
    unfold startsWithSlash
    rw [hp]
    rfl
  unfold normalizeParts splitSegs
  rw [habs, hp]
  rw [show splitSegsAux [] ('/' :: tail) = "" :: splitSegsAux [] tail from by
    rw [splitSegsAux, if_pos rfl]
    rfl]
  rw [splitSegsAux_no_slash tail [] hns]
  simp only [List.reverse_nil, List.nil_append]
  rw [show normSegs true [] ["", String.mk tail] = normSegs true [] [String.mk tail] from by
    rw [normSegs, if_pos (by simp)]]
  rw [normSegs_single _ h0 h1 h2]
  unfold joinSegs
  rw [if_pos rfl]
  rfl

theorem normalizeParts_two_slash_tail (tail : List Char) (hns : ∀ c ∈ tail, c ≠ '/')
    (h0 : String.mk tail ≠ "") (h1 : String.mk tail ≠ ".") (h2 : String.mk tail ≠ "..")
    (p : String) (hp : p.data = '/' :: '/' :: tail) :
    normalizeParts p = "/" ++ String.mk tail := by
  have habs : startsWithSlash p = true := by
    unfold startsWithSlash
    rw [hp]
    rfl
  unfold normalizeParts splitSegs
  rw [habs, hp]
  rw [show splitSegsAux [] ('/' :: '/' :: tail) = "" :: "" :: splitSegsAux [] tail from by
    rw [splitSegsAux, if_pos rfl, splitSegsAux, if_pos rfl]; rfl]
  rw [splitSegsAux_no_slash tail [] hns]
  simp only [List.reverse_nil, List.nil_append]
  rw [show normSegs true [] ["", "", String.mk tail]
      = normSegs true [] ["", String.mk tail] from by
    rw [normSegs, if_pos (by simp)]]
  rw [show normSegs true [] ["", String.mk tail] = normSegs true [] [String.mk tail] from by
    rw [normSegs, if_pos (by simp)]]
  rw [normSegs_single _ h0 h1 h2]
  unfold joinSegs
  rw [if_pos rfl]
  rfl

theorem chainTail_props (m : Nat) :
    (String.mk (List.replicate (m + 1) 'f' ++ ".html".data) ≠ "") ∧
    (String.mk (List.replicate (m + 1) 'f' ++ ".html".data) ≠ ".") ∧
    (String.mk (List.replicate (m + 1) 'f' ++ ".html".data) ≠ "..") := by
  refine ⟨?_, ?_, ?_⟩ <;>
  · intro h
    have := congrArg String.data h
    simp [List.replicate_succ] at this

/-- The chain file names are fixed points of `normalizePath`. -/
theorem normalizePath_chainName (m : Nat) :
    normalizePath (chainName m) = chainName m := by
  obtain ⟨h0, h1, h2⟩ := chainTail_props m
  have hres : pathResolve (chainName m)
      = "/" ++ String.mk (List.replicate (m + 1) 'f' ++ ".html".data) := by
    unfold pathResolve
    rw [if_pos (by unfold startsWithSlash; rw [chainName_data]; rfl)]
    exact normalizeParts_slash_tail _ (chainName_tail_no_slash m) h0 h1 h2 _
      (chainName_data m)
  unfold normalizePath
  rw [hres]
  have hdata : ("/" ++ String.mk (List.replicate (m + 1) 'f' ++ ".html".data)).data
      = (chainName m).data := by
    rw [chainName_data]; rfl
  rw [hdata, map_backslash_id _ (chainName_no_backslash m)]

/-- Resolving a chain-file target (always root-relative) yields the chain
file name itself, whatever the including file was. -/
theorem resolveIncludePath_chainName (m : Nat) (includingFile : String) :
    resolveIncludePath (chainName m) includingFile "/" = chainName m := by
  obtain ⟨h0, h1, h2⟩ := chainTail_props m
  unfold resolveIncludePath
  rw [if_pos (by unfold startsWithSlash; rw [chainName_data]; rfl)]
  have hdrop : strDrop (chainName m) 1
      = String.mk (List.replicate (m + 1) 'f' ++ ".html".data) := by
    unfold strDrop
    rw [chainName_data]
    rfl
  rw [hdrop]
  have hne2 : ¬("/" ++ "/" ++ String.mk (List.replicate (m + 1) 'f' ++ ".html".data))
      = "" := by
    intro h
    have := congrArg String.data h
    simp [strData_append] at this
  have hnorm : normalizeParts
      ("/" ++ "/" ++ String.mk (List.replicate (m + 1) 'f' ++ ".html".data))
      = "/" ++ String.mk (List.replicate (m + 1) 'f' ++ ".html".data) :=
    normalizeParts_two_slash_tail _ (chainName_tail_no_slash m) h0 h1 h2 _ rfl
  have hlast : ("/" ++ "/" ++ String.mk
      (List.replicate (m + 1) 'f' ++ ".html".data)).data.getLast? = some 'l' := by
    show (['/', '/'] ++ (List.replicate (m + 1) 'f' ++ ".html".data)).getLast?
        = some 'l'
    rw [List.getLast?_append_of_ne_nil _ (by simp),
      List.getLast?_append_of_ne_nil _ (by decide)]
    decide
  have hends : endsWithSlash
      ("/" ++ "/" ++ String.mk (List.replicate (m + 1) 'f' ++ ".html".data))
      = false := by
    unfold endsWithSlash
    rw [hlast]
    decide
  unfold pathJoin
  rw [if_neg (show ¬("/" : String) = "" from by decide), if_neg h0]
  unfold joinFinish
  rw [if_neg hne2, hends, hnorm]
  simp only [Bool.false_and, if_false]
  exact String.ext (by rw [chainName_data]; rfl)

theorem chainFs_chainName (N m : Nat) (h : m ≤ N) :
    chainFs N (chainName m) = some (chainContent N m) := by
  have hcount : ((chainName m).data.drop 1).takeWhile (fun c => c = 'f')
      = List.replicate (m + 1) 'f' := by
    rw [chainName_data]
    show (List.replicate (m + 1) 'f' ++ '.' :: ['h', 't', 'm', 'l']).takeWhile
        (fun c => c = 'f') = List.replicate (m + 1) 'f'
    refine takeWhile_all_append _ _ ?_ '.' (by decide) _
    intro c hc
    rw [List.eq_of_mem_replicate hc]
    decide
  unfold chainFs
  rw [hcount, List.length_replicate]
  rw [if_pos ⟨by omega, by rw [Nat.add_sub_cancel], by omega⟩]
  rw [Nat.add_sub_cancel]

theorem getFileExtension_chainName (m : Nat) :
    getFileExtension (chainName m) = some ".html" := by
  rw [getFileExtension_spec]
  have hmemd : '.' ∈ (chainName m).data := by
    rw [chainName_data]
    simp
  rw [if_pos hmemd]
  have hrev : (chainName m).data.reverse
      = ['l', 'm', 't', 'h'] ++ '.' :: ((List.replicate (m + 1) 'f').reverse ++ ['/']) := by
    rw [chainName_data]
    simp [List.reverse_cons, List.reverse_append]
  have hw : (chainName m).data.reverse.takeWhile (fun c => c ≠ '.')
      = ['l', 'm', 't', 'h'] := by
    rw [hrev]
    exact takeWhile_all_append _ _ (by decide) '.' (by decide) _
  rw [hw]
  rw [if_neg (by decide)]
  decide

theorem matchesFileType_chainName (m : Nat) :
    matchesFileType (chainName m) ["html"] DEFAULT_FILE_TYPE_MAP = true := by
  unfold matchesFileType
  rw [getFileExtension_chainName]
  decide

theorem scanAux_cons (fuel : Nat) (c : Char) (rest : List Char) (i : Nat) :
    scanAux (fuel + 1) (c :: rest) i
      = match matchDirectiveAt (c :: rest) with
        | some (len, tgt) =>
          ⟨i, len, String.mk tgt⟩ :: scanAux fuel (rest.drop (len - 1)) (i + len)
        | none => scanAux fuel rest (i + 1) := rfl

theorem matchDirectiveAt_ne_head (c : Char) (cs : List Char) (h : ¬ c = '<') :
    matchDirectiveAt (c :: cs) = none := by
  simp [matchDirectiveAt, dropLit, h]

theorem scanAux_single_ne (fuel i : Nat) (c : Char) (h : ¬ c = '<') :
    scanAux (fuel + 1) [c] i = [] := by
  rw [scanAux_cons, matchDirectiveAt_ne_head c [] h]
  show scanAux fuel [] (i + 1) = []
  cases fuel <;> rfl

/-- Scanning a single directive wrapped in brackets: exactly one match at
offset 1 with the whole directive's length. -/
theorem findDirectives_wrapped (name : String)
    (hne : name.data ≠ []) (hq : ∀ c ∈ name.data, c ≠ '"') :
    findDirectives ("[<!--#include virtual=\"" ++ name ++ "\" -->]")
      = [⟨1, 27 + name.data.length, name⟩] := by
  have hgram : DirectiveGrammarAt
      ("<!--#include virtual=\"".data ++ name.data ++ "\" -->]".data)
      (27 + name.data.length) name.data := by
    refine ⟨[' '], [], [], [' '], [']'], ?_, by decide, by decide, by decide,
      by decide, by decide, hne, hq, by
        simp only [List.length_cons, List.length_nil]
        omega⟩
    simp [List.append_assoc]
  have hmatch := matchDirectiveAt_complete _ _ _ hgram
  have hm0 : matchDirectiveAt
      ('[' :: ("<!--#include virtual=\"".data ++ name.data ++ "\" -->]".data))
      = none := matchDirectiveAt_ne_head _ _ (by decide)
  have hL : ("[<!--#include virtual=\"" ++ name ++ "\" -->]").data.length
      = name.data.length + 29 := by
    show ("[<!--#include virtual=\"".data ++ name.data ++ "\" -->]".data).length
        = name.data.length + 29
    simp [List.length_append]
    try omega
  have hdata : ("[<!--#include virtual=\"" ++ name ++ "\" -->]").data
      = '[' :: ("<!--#include virtual=\"".data ++ name.data ++ "\" -->]".data) := rfl
  unfold findDirectives
  rw [hL, hdata]
  rw [show name.data.length + 29 = (name.data.length + 28) + 1 from rfl,
    scanAux_cons, hm0]
  show scanAux (name.data.length + 28)
      ("<!--#include virtual=\"".data ++ name.data ++ "\" -->]".data) 1
      = [⟨1, 27 + name.data.length, name⟩]
  have hdata2 : "<!--#include virtual=\"".data ++ name.data ++ "\" -->]".data
      = '<' :: ("!--#include virtual=\"".data ++ name.data ++ "\" -->]".data) := rfl
  have hmatch2 : matchDirectiveAt
      ('<' :: ("!--#include virtual=\"".data ++ name.data ++ "\" -->]".data))
      = some (27 + name.data.length, name.data) := hmatch
  rw [hdata2, show name.data.length + 28 = (name.data.length + 27) + 1 from rfl,
    scanAux_cons, hmatch2]
  show (⟨1, 27 + name.data.length, name⟩ : SsiMatch) ::
      scanAux (name.data.length + 27)
        (("!--#include virtual=\"".data ++ name.data ++ "\" -->]".data).drop
          (27 + name.data.length - 1))
        (1 + (27 + name.data.length))
      = [⟨1, 27 + name.data.length, name⟩]
  have hdroptail : ("!--#include virtual=\"".data ++ name.data ++ "\" -->]".data).drop
      (27 + name.data.length - 1) = [']'] := by
    have hsplit : "!--#include virtual=\"".data ++ name.data ++ "\" -->]".data
        = ("!--#include virtual=\"".data ++ name.data ++ "\" -->".data) ++ [']'] := by
      simp [List.append_assoc]
    rw [hsplit]
    have hlen2 : ("!--#include virtual=\"".data ++ name.data ++ "\" -->".data).length
        = 27 + name.data.length - 1 := by
      simp [List.length_append]
      try omega
    rw [← hlen2, drop_exact]
  rw [hdroptail]
  have htail : scanAux (name.data.length + 27) [']'] (1 + (27 + name.data.length))
      = [] :=
    scanAux_single_ne (name.data.length + 26) (1 + (27 + name.data.length)) ']'
      (by decide)
  rw [htail]

theorem not_mem_of_contains_eq_false (l : List String) (x : String)
    (h : l.contains x = false) : x ∉ l := by
  intro hm
  have h2 : l.contains x = true := List.elem_iff.mpr hm
  rw [h] at h2
  cases h2

theorem contains_eq_false_of_not_mem (l : List String) (x : String)
    (h : x ∉ l) : l.contains x = false := by
  rw [Bool.eq_false_iff]
  intro hc
  exact h (List.elem_iff.mp hc)

theorem mergeDeps_append_of_disjoint (ds : List String) :
    ∀ deps : List String, ds.Nodup → (∀ d ∈ ds, d ∉ deps) →
      mergeDeps deps ds = deps ++ ds := by
  induction ds with
  | nil => intro deps _ _; simp [mergeDeps]
  | cons x xs ih =>
    intro deps hnodup hdisj
    unfold mergeDeps at ih ⊢
    rw [List.foldl_cons]
    have hx : insertDep deps x = deps ++ [x] := by
      unfold insertDep
      rw [if_neg (by
        rw [contains_eq_false_of_not_mem deps x (hdisj x (List.mem_cons_self _ _))]
        simp)]
    rw [hx]
    obtain ⟨hxmem, hxs⟩ := List.nodup_cons.mp hnodup
    rw [ih (deps ++ [x]) hxs (fun d hd => by
      intro hmem
      rcases List.mem_append.mp hmem with h1 | h1
      · exact hdisj d (List.mem_cons_of_mem _ hd) h1
      · rcases List.mem_singleton.mp h1 with rfl
        exact hxmem hd)]
    simp

set_option maxRecDepth 1024 in
/-- One expansion step at level `k < N` of the chain: the call wraps the
child call's text in the brackets and merges the child's dependencies
behind the child's name. -/
theorem chain_step (N maxD g k : Nat) (seen : List String)
    (hk : k < N)
    (hseenk : seen.contains (chainName k) = false) :
    processSsiRecursive (chainFs N) "/" maxD ["html"] DEFAULT_FILE_TYPE_MAP (g + 1)
        (chainName k) (chainContent N k) seen
      = { code := "[" ++ (processSsiRecursive (chainFs N) "/" maxD ["html"]
            DEFAULT_FILE_TYPE_MAP g (chainName (k + 1)) (chainContent N (k + 1))
            (seen ++ [chainName k])).code ++ "]",
          deps := mergeDeps [chainName (k + 1)]
            (processSsiRecursive (chainFs N) "/" maxD ["html"] DEFAULT_FILE_TYPE_MAP g
              (chainName (k + 1)) (chainContent N (k + 1))
              (seen ++ [chainName k])).deps } := by
  have hnk := normalizePath_chainName k
  have hnk1 := normalizePath_chainName (k + 1)
  have hcontent : chainContent N k
      = "[<!--#include virtual=\"" ++ chainName (k + 1) ++ "\" -->]" := by
    unfold chainContent
    rw [if_pos hk]
  have hscan := findDirectives_wrapped (chainName (k + 1)) (chainName_ne_nil _)
    (chainName_no_quote _)
  have hres := resolveIncludePath_chainName (k + 1) (chainName k)
  have hfs := chainFs_chainName N (k + 1) (by omega)
  have hmf := matchesFileType_chainName (k + 1)
  have hins : insertDep ([] : List String) (chainName (k + 1))
      = [chainName (k + 1)] := by
    unfold insertDep
    simp
  have hmem : chainName k ∉ seen := not_mem_of_contains_eq_false _ _ hseenk
  have happ : applyReplacements
      ("[<!--#include virtual=\"" ++ chainName (k + 1) ++ "\" -->]")
      [⟨1, 1 + (27 + (chainName (k + 1)).length),
        (processSsiRecursive (chainFs N) "/" maxD ["html"] DEFAULT_FILE_TYPE_MAP g
          (chainName (k + 1)) (chainContent N (k + 1))
          (seen ++ [chainName k])).code⟩]
      = String.mk (['['] ++ (processSsiRecursive (chainFs N) "/" maxD ["html"]
          DEFAULT_FILE_TYPE_MAP g (chainName (k + 1)) (chainContent N (k + 1))
          (seen ++ [chainName k])).code.data ++ [']']) := by
    refine applyReplacements_one' ['[']
      ("<!--#include virtual=\"".data ++ (chainName (k + 1)).data ++ "\" -->".data)
      [']'] _ _ 1 (1 + (27 + (chainName (k + 1)).length)) ?_ (by decide) ?_
    · simp [strData_append, List.append_assoc]
    · simp [List.length_append]
      omega
  have hbr : ∀ c : String, String.mk (['['] ++ c.data ++ [']']) = "[" ++ c ++ "]" :=
    fun c => String.ext (by simp [strData_append])
  rw [hcontent]
  simp only [processSsiRecursive]
  rw [hscan]
  simp [processMatches, hnk, hnk1, hseenk, hmem, hres, hfs, hmf, hins, happ]
  exact String.ext (by simp [strData_append])

/-- A call entered with an exhausted depth budget returns the
MaxDepthExceeded diagnostic with the configured limit, an empty dependency
set, and scans nothing (the content is arbitrary). -/
theorem depth_diag_call (fsys : String → Option String) (root : String)
    (maxD : Nat) (ift : List String) (ftm : FileTypeMap)
    (filePath content : String) (seen : List String)
    (h : seen.contains (normalizePath filePath) = false) :
    processSsiRecursive fsys root maxD ift ftm 0 filePath content seen
      = { code := "<!-- SSI Error: Maximum include depth (" ++ toString maxD ++
            ") exceeded -->",
          deps := [] } := by
  have hmem := not_mem_of_contains_eq_false _ _ h
  simp [processSsiRecursive, hmem]

theorem chain_leaf (N maxD g : Nat) (seen : List String)
    (hseen : seen.contains (chainName N) = false) :
    processSsiRecursive (chainFs N) "/" maxD ["html"] DEFAULT_FILE_TYPE_MAP (g + 1)
        (chainName N) (chainContent N N) seen
      = { code := "leaf", deps := [] } := by
  have hmem : chainName N ∉ seen := not_mem_of_contains_eq_false _ _ hseen
  have hnk := normalizePath_chainName N
  have hcontent : chainContent N N = "leaf" := by
    unfold chainContent
    rw [if_neg (by omega)]
  have hscan : findDirectives "leaf" = [] := by decide
  rw [hcontent]
  simp only [processSsiRecursive]
  rw [hscan]
  simp [processMatches, hnk, hmem, applyReplacements_nil]

theorem chainDeps_cons (k t : Nat) :
    mergeDeps [chainName (k + 1)]
        ((List.range t).map (fun j => chainName (k + 1 + 1 + j)))
      = (List.range (t + 1)).map (fun j => chainName (k + 1 + j)) := by
  rw [mergeDeps_append_of_disjoint]
  · rw [List.range_succ_eq_map]
    simp only [List.map_cons, List.map_map, List.singleton_append]
    congr 1
    apply List.map_congr_left
    intro j _
    show chainName (k + 1 + 1 + j) = chainName (k + 1 + (j + 1))
    congr 1
    omega
  · refine (List.nodup_range t).map ?_
    intro a b hab
    have := chainName_inj hab
    omega
  · intro d hd hmem
    obtain ⟨j, _, hj⟩ := List.mem_map.mp hd
    rcases List.mem_singleton.mp hmem with rfl
    have := chainName_inj hj
    omega

theorem chain_run_full (N maxD : Nat) :
    ∀ (g : Nat), ∀ (k : Nat) (seen : List String),
      k ≤ N → N - k < g →
      (∀ j, k ≤ j → j ≤ N → seen.contains (chainName j) = false) →
      processSsiRecursive (chainFs N) "/" maxD ["html"] DEFAULT_FILE_TYPE_MAP g
          (chainName k) (chainContent N k) seen
        = { code := nestedBrack (N - k) "leaf",
            deps := (List.range (N - k)).map (fun j => chainName (k + 1 + j)) } := by
  intro g
  induction g with
  | zero => intro k seen hk hg _; omega
  | succ g ih =>
    intro k seen hk hg hseen
    by_cases hkN : k = N
    · subst hkN
      rw [chain_leaf k maxD g seen (hseen k (le_refl _) (le_refl _))]
      simp [Nat.sub_self, nestedBrack]
    · have hklt : k < N := by omega
      have hseen' : ∀ j, k + 1 ≤ j → j ≤ N →
          (seen ++ [chainName k]).contains (chainName j) = false := by
        intro j hj1 hj2
        apply contains_eq_false_of_not_mem
        intro hmem
        rcases List.mem_append.mp hmem with h1 | h1
        · exact not_mem_of_contains_eq_false _ _ (hseen j (by omega) hj2) h1
        · have := chainName_inj (List.mem_singleton.mp h1)
          omega
      have hNk : N - k = N - (k + 1) + 1 := by omega
      rw [chain_step N maxD g k seen hklt (hseen k (le_refl _) hk),
        ih (k + 1) (seen ++ [chainName k]) (by omega) (by omega) hseen',
        chainDeps_cons k (N - (k + 1)), hNk]
      rfl

theorem chain_run_truncated (N maxD : Nat) :
    ∀ (g : Nat), ∀ (k : Nat) (seen : List String),
      k ≤ N → g ≤ N - k →
      (∀ j, k ≤ j → j ≤ N → seen.contains (chainName j) = false) →
      processSsiRecursive (chainFs N) "/" maxD ["html"] DEFAULT_FILE_TYPE_MAP g
          (chainName k) (chainContent N k) seen
        = { code := nestedBrack g ("<!-- SSI Error: Maximum include depth ("
              ++ toString maxD ++ ") exceeded -->"),
            deps := (List.range g).map (fun j => chainName (k + 1 + j)) } := by
  intro g
  induction g with
  | zero =>
    intro k seen hk _ hseen
    rw [depth_diag_call (chainFs N) "/" maxD ["html"] DEFAULT_FILE_TYPE_MAP
      (chainName k) (chainContent N k) seen
      (by rw [normalizePath_chainName]; exact hseen k (le_refl _) hk)]
    rfl
  | succ g ih =>
    intro k seen hk hg hseen
    have hklt : k < N := by omega
    have hseen' : ∀ j, k + 1 ≤ j → j ≤ N →
        (seen ++ [chainName k]).contains (chainName j) = false := by
      intro j hj1 hj2
      apply contains_eq_false_of_not_mem
      intro hmem
      rcases List.mem_append.mp hmem with h1 | h1
      · exact not_mem_of_contains_eq_false _ _ (hseen j (by omega) hj2) h1
      · have := chainName_inj (List.mem_singleton.mp h1)
        omega
    rw [chain_step N maxD g k seen hklt (hseen k (le_refl _) hk),
      ih (k + 1) (seen ++ [chainName k]) (by omega) (by omega) hseen',
      chainDeps_cons k g]
    rfl

/-- C2: Depth law. For the chain fixture of `N` nested, recursion-eligible
includes below the top-level document (`chainName 0` includes `chainName 1`
includes ... includes `chainName N`, a leaf), `processSsi` fully resolves
every level when `maxDepth > N`; when `maxDepth ≤ N` the output is the
partially expanded chain ending in the MaxDepthExceeded diagnostic whose
number is the configured `maxDepth` (not the chain length), with exactly
`maxDepth` levels expanded — each recursive descent consuming exactly one
unit of the depth budget; and the diagnostic-returning call itself (budget
exhausted, arbitrary content and collaborators) scans nothing and returns
an empty dependency set. -/
theorem depth_law_chain (N maxDepth : Nat) :
    (maxDepth > N →
      processSsi (chainFs N) (chainName 0) (chainContent N 0)
          { root := "/", maxDepth := maxDepth, includeFileTypes := ["html"] }
        = { code := nestedBrack N "leaf",
            deps := (List.range N).map (fun j => chainName (j + 1)) }) ∧
    (maxDepth ≤ N →
      processSsi (chainFs N) (chainName 0) (chainContent N 0)
          { root := "/", maxDepth := maxDepth, includeFileTypes := ["html"] }
        = { code := nestedBrack maxDepth
              ("<!-- SSI Error: Maximum include depth (" ++ toString maxDepth ++
                ") exceeded -->"),
            deps := (List.range maxDepth).map (fun j => chainName (j + 1)) }) ∧
    (∀ (fsys : String → Option String) (root : String) (ift : List String)
        (ftm : FileTypeMap) (filePath content : String) (seen : List String),
      seen.contains (normalizePath filePath) = false →
      processSsiRecursive fsys root maxDepth ift ftm 0 filePath content seen
        = { code := "<!-- SSI Error: Maximum include depth (" ++
              toString maxDepth ++ ") exceeded -->",
            deps := [] }) := by
  refine ⟨?_, ?_, ?_⟩
  · intro h
    have hmap : ((List.range N).map (fun j => chainName (0 + 1 + j)))
        = (List.range N).map (fun j => chainName (j + 1)) := by
      apply List.map_congr_left
      intro j _
      congr 1
      omega
    refine (chain_run_full N maxDepth maxDepth 0 [] (Nat.zero_le _) (by omega)
      (fun j _ _ => rfl)).trans ?_
    rw [Nat.sub_zero, hmap]
  · intro h
    have hmap : ((List.range maxDepth).map (fun j => chainName (0 + 1 + j)))
        = (List.range maxDepth).map (fun j => chainName (j + 1)) := by
      apply List.map_congr_left
      intro j _
      congr 1
      omega
    refine (chain_run_truncated N maxDepth maxDepth 0 [] (Nat.zero_le _)
      (by omega) (fun j _ _ => rfl)).trans ?_
    rw [hmap]
  · intro fsys root ift ftm filePath content seen hs
    exact depth_diag_call fsys root maxDepth ift ftm filePath content seen hs

/-- Witness for C2 at `N = 2`: with `maxDepth = 3 > 2` the chain expands
fully; with `maxDepth = 2 ≤ 2` exactly two levels expand and the diagnostic
names the configured limit 2. -/
theorem depth_law_chain_witness :
    (processSsi (chainFs 2) (chainName 0) (chainContent 2 0)
        { root := "/", maxDepth := 3, includeFileTypes := ["html"] }
      = { code := "[[leaf]]", deps := ["/ff.html", "/fff.html"] }) ∧
    (processSsi (chainFs 2) (chainName 0) (chainContent 2 0)
        { root := "/", maxDepth := 2, includeFileTypes := ["html"] }
      = { code := "[[<!-- SSI Error: Maximum include depth (2) exceeded -->]]",
          deps := ["/ff.html", "/fff.html"] }) :=
  ⟨((depth_law_chain 2 3).1 (by decide)).trans (by decide),
   ((depth_law_chain 2 2).2.1 (by decide)).trans (by decide)⟩
